import Mathlib

/-!
Verification of the hydralance workspace structural indexer and
reverse-path resolver (the code in the extension snapshot holding
`ReversePathIndex`, `YamlStructureParser`, `YamlWorkspaceIndexer` and
`HydraInterpolationDefinitionProvider`).

The TypeScript source is shallowly embedded:

* JavaScript strings are Lean `String`s; the handful of string/regex
  primitives the code uses (`split`, `trim`, `match` against the fixed
  key-line regex, `join('.')`) are modelled as executable Lean functions
  over `String.toList`.
* A JavaScript `Map` is modelled as an association list in insertion
  order.  `Map.set` on an existing key overwrites in place, otherwise it
  appends; `Map.get` reads the (unique) entry; `Map.delete` removes it.
  A real `Map` can never hold two entries with the same key, so
  theorems about arbitrary map states carry a `NodupKeys` hypothesis
  expressing exactly that intrinsic property of the modelled type.
* JavaScript object identity (the `d !== definition` test used by
  `removeFile`) is modelled by stamping every created
  `YamlKeyDefinition` with a distinct numeric `defId`; each `new` in the
  source corresponds to one fresh id, so id equality coincides with
  reference equality.
* The workspace configuration read through
  `vscode.workspace.getConfiguration('hydralance')` is passed as an
  explicit record, and `vscode.workspace.getWorkspaceFolder` as an
  explicit function from document uri to optional workspace-folder uri.
-/

namespace Hydralance

/-! ## JavaScript string primitives -/

/-- Characters matched by the regex class used in the source
(`\s` in `/^(\s*)/`, `String.prototype.trim`); the documents in scope
contain spaces, tabs and carriage returns. -/
def jsIsSpace (c : Char) : Bool :=
  c == ' ' || c == '\t' || c == '\r'

/-- JavaScript `String.prototype.trim`. -/
def jsTrim (s : String) : String :=
  (((s.toList.dropWhile jsIsSpace).reverse.dropWhile jsIsSpace).reverse).asString

/-- JavaScript `s.startsWith(p)`. -/
def strStartsWith (s p : String) : Bool :=
  p.toList.isPrefixOf s.toList

/-- JavaScript `s.endsWith(p)`. -/
def strEndsWith (s p : String) : Bool :=
  p.toList.isSuffixOf s.toList

/-- JavaScript `s.split(sep)` for a single-character separator. -/
def jsSplit (sep : Char) (s : String) : List String :=
  (s.toList.splitOn sep).map List.asString

/-- JavaScript `array.join('.')` at the character level. -/
def joinDotsL : List (List Char) → List Char
  | [] => []
  | [s] => s
  | s :: t => s ++ '.' :: joinDotsL t

/-- JavaScript `pathArray.join('.')`. -/
def joinDots (l : List String) : String :=
  (joinDotsL (l.map String.toList)).asString

/-! ## JavaScript `Map` as an insertion-ordered association list -/

/-- `Map.get(k)`: the value of the first (in a real `Map`: only)
entry with key `k`. -/
def mapGet {α : Type} (m : List (String × α)) (k : String) : Option α :=
  match m with
  | [] => none
  | (k1, v1) :: rest => if k1 = k then some v1 else mapGet rest k

/-- `Map.set(k, v)`: overwrite in place if the key is present,
otherwise append a new entry at the end. -/
def mapSet {α : Type} (m : List (String × α)) (k : String) (v : α) : List (String × α) :=
  match m with
  | [] => [(k, v)]
  | (k1, v1) :: rest => if k1 = k then (k, v) :: rest else (k1, v1) :: mapSet rest k v

/-- `Map.delete(k)`: drop the entry with key `k` if present. -/
def mapDelete {α : Type} (m : List (String × α)) (k : String) : List (String × α) :=
  match m with
  | [] => []
  | (k1, v1) :: rest => if k1 = k then rest else (k1, v1) :: mapDelete rest k

/-- A real JavaScript `Map` cannot hold two entries with the same key. -/
def NodupKeys {α : Type} (m : List (String × α)) : Prop :=
  (m.map Prod.fst).Nodup

/-! ## Data model -/

/-- `vscode.Position`. -/
structure VPos where
  line : Nat
  character : Nat
deriving DecidableEq, Repr

/-- `vscode.Range` (start and end positions). -/
structure VRange where
  startLine : Nat
  startChar : Nat
  endLine : Nat
  endChar : Nat
deriving DecidableEq, Repr

/-- The `YamlKeyDefinition` class.  `fileUri` is the string form of the
owning document's uri (`definition.fileUri.toString()`), and `defId`
models the object's reference identity. -/
structure YamlKeyDefinition where
  logicalPath : List String
  fileUri : String
  position : VPos
  range : VRange
  defId : Nat
deriving DecidableEq, Repr

/-- One query result of `ReversePathIndex.findMatches`:
a definition paired with the suffix length that matched. -/
structure YamlMatch where
  definition : YamlKeyDefinition
  matchLevel : Nat
deriving DecidableEq, Repr

/-- The two maps owned by `ReversePathIndex`. -/
structure ReversePathIndex where
  reverseIndex : List (String × List YamlKeyDefinition)
  fileIndex : List (String × List YamlKeyDefinition)
deriving DecidableEq, Repr

/-- The configuration values the core reads from
`vscode.workspace.getConfiguration('hydralance')`, after applying the
source's defaults. -/
structure HydralanceConfig where
  matchFilter : String
  isolateWorkspaceFolders : Bool
deriving DecidableEq, Repr

/-- The defaults hard-coded at the `config.get` call sites:
`'top matches only'` and `true`. -/
def defaultConfig : HydralanceConfig :=
  { matchFilter := "top matches only", isolateWorkspaceFolders := true }

/-- The empty index (`new ReversePathIndex()`). -/
def emptyIndex : ReversePathIndex := { reverseIndex := [], fileIndex := [] }

/-! ## ReversePathIndex -/

/-- The suffix key for `path.slice(i).join('.')`. -/
def suffixKey (path : List String) (i : Nat) : String :=
  joinDots (path.drop i)

/-- All suffix keys of a logical path, in the order `addDefinition`
visits them (`i = 0 .. path.length - 1`; `i = 0` is the full path,
`i = path.length - 1` the single trailing key). -/
def suffixKeys (path : List String) : List String :=
  (List.range path.length).map (suffixKey path)

/-- One iteration of the indexing loop in `addDefinition`: push the
definition onto the bucket for `suffix`, creating the bucket if absent. -/
def addToBucket (m : List (String × List YamlKeyDefinition)) (suffix : String)
    (d : YamlKeyDefinition) : List (String × List YamlKeyDefinition) :=
  match mapGet m suffix with
  | some ds => mapSet m suffix (ds ++ [d])
  | none => m ++ [(suffix, [d])]

/-- `ReversePathIndex.addDefinition`: record the definition under its
owning file and under every suffix of its logical path. -/
def addDefinition (idx : ReversePathIndex) (d : YamlKeyDefinition) : ReversePathIndex :=
  let fileKey := d.fileUri
  let fi :=
    match mapGet idx.fileIndex fileKey with
    | some ds => mapSet idx.fileIndex fileKey (ds ++ [d])
    | none => idx.fileIndex ++ [(fileKey, [d])]
  let ri := (suffixKeys d.logicalPath).foldl (fun m s => addToBucket m s d) idx.reverseIndex
  { reverseIndex := ri, fileIndex := fi }

/-- One iteration of the inner removal loop in `removeFile`: filter the
occurrences of the definition (compared by reference identity, i.e. by
`defId`) out of the bucket for `suffix`, deleting the bucket if it
becomes empty. -/
def filterBucket (m : List (String × List YamlKeyDefinition)) (suffix : String)
    (id : Nat) : List (String × List YamlKeyDefinition) :=
  let entries := (mapGet m suffix).getD []
  let filtered := entries.filter (fun d => d.defId != id)
  if filtered.isEmpty then mapDelete m suffix else mapSet m suffix filtered

/-- The outer removal loop body of `removeFile` for one definition:
visit every suffix of its logical path. -/
def removeDefStep (m : List (String × List YamlKeyDefinition))
    (e : YamlKeyDefinition) : List (String × List YamlKeyDefinition) :=
  (suffixKeys e.logicalPath).foldl (fun m2 s => filterBucket m2 s e.defId) m

/-- `ReversePathIndex.removeFile`: drop every definition owned by the
document from the reverse index, then delete its file-index entry. -/
def removeFile (idx : ReversePathIndex) (uri : String) : ReversePathIndex :=
  let definitions := (mapGet idx.fileIndex uri).getD []
  let ri := definitions.foldl removeDefStep idx.reverseIndex
  { reverseIndex := ri, fileIndex := mapDelete idx.fileIndex uri }

/-- The raw match collection loop of `findMatches`: for `level` from
`path.length` down to `1`, look up the bucket of the last `level`
components and emit each definition found at that level. -/
def rawMatches (idx : ReversePathIndex) (interpolationPath : List String) : List YamlMatch :=
  (List.range interpolationPath.length).foldl
    (fun results k =>
      let level := interpolationPath.length - k
      let searchPath := joinDots (interpolationPath.drop k)
      let ms := (mapGet idx.reverseIndex searchPath).getD []
      results ++ ms.map (fun d => { definition := d, matchLevel := level }))
    []

/-- One step of the deduplication loop of `findMatches` over the
`Map<string, result>` accumulator: keep the first result for a file
unless a later one has a strictly higher match level. -/
def dedupStep (acc : List (String × YamlMatch)) (r : YamlMatch) : List (String × YamlMatch) :=
  let key := r.definition.fileUri
  match mapGet acc key with
  | some existing =>
      if existing.matchLevel < r.matchLevel then mapSet acc key r else acc
  | none => acc ++ [(key, r)]

/-- The deduplication stage of `findMatches`
(`Array.from(deduplicatedResults.values())`). -/
def dedupMatches (results : List YamlMatch) : List YamlMatch :=
  (results.foldl dedupStep []).map Prod.snd

/-- Lexicographic comparison of character lists by character code. -/
def charListLe : List Char → List Char → Bool
  | [], _ => true
  | _ :: _, [] => false
  | a :: as, b :: bs =>
      if a.toNat < b.toNat then true
      else if b.toNat < a.toNat then false
      else charListLe as bs

/-- The string order used to break ties between file uris, modelling
`localeCompare` on these ASCII paths as code-point order. -/
def strLe (a b : String) : Bool := charListLe a.toList b.toList

/-- The sort comparator of `findMatches`: match level descending, then
file uri ascending.  `matchLE a b` holds when `a` may come before `b`. -/
def matchLE (a b : YamlMatch) : Bool :=
  b.matchLevel < a.matchLevel
    || (a.matchLevel == b.matchLevel
        && strLe a.definition.fileUri b.definition.fileUri)

/-- Insert a match into an already sorted list, after any earlier
element it ties with, so that the overall sort below is stable. -/
def insertMatch (a : YamlMatch) : List YamlMatch → List YamlMatch
  | [] => [a]
  | b :: rest => if matchLE a b then a :: b :: rest else b :: insertMatch a rest

/-- The sorting stage of `findMatches` (`uniqueResults.sort(...)`).
JavaScript's `Array.prototype.sort` is stable and `matchLE` is a total
preorder, which determines the output uniquely; a stable insertion
sort realises it. -/
def sortMatches (ms : List YamlMatch) : List YamlMatch :=
  ms.foldr insertMatch []

/-- `ReversePathIndex.applyMatchFilter`, with the configuration passed
explicitly.  The branch order mirrors the source: `'all'`, then the
empty-result early return, then `'perfect matches only'`, then
`'top matches only'` (which reads `results[0].matchLevel`, well defined
because the empty case returned earlier), then the unknown-value
fallback returning everything. -/
def applyMatchFilter (cfg : HydralanceConfig) (results : List YamlMatch)
    (maxPossibleLevel : Nat) : List YamlMatch :=
  if cfg.matchFilter = "all" then results
  else if results.isEmpty then results
  else if cfg.matchFilter = "perfect matches only" then
    results.filter (fun r => r.matchLevel == maxPossibleLevel)
  else if cfg.matchFilter = "top matches only" then
    match results with
    | [] => []
    | r0 :: _ => results.filter (fun r => r.matchLevel == r0.matchLevel)
  else results

/-- `ReversePathIndex.findMatches`: raw suffix lookups, deduplication by
owning file keeping the highest level, stable sort, then the configured
match filter. -/
def findMatches (idx : ReversePathIndex) (cfg : HydralanceConfig)
    (interpolationPath : List String) : List YamlMatch :=
  applyMatchFilter cfg (sortMatches (dedupMatches (rawMatches idx interpolationPath)))
    interpolationPath.length

/-! ## YamlStructureParser -/

/-- A stack frame of the parser (`{key, indent}`); the Lean list holds
the innermost frame at its head, so the JavaScript `pathStack.map(...)`
bottom-to-top traversal is `stack.reverse.map (fun f => f.key)`. -/
structure StackFrame where
  key : String
  indent : Nat
deriving DecidableEq, Repr

/-- The groups of a successful match of `/^(\s*)([^:]+):\s*(.*)/`:
`ws` is the length of group 1, `keyRaw` group 2, `value` group 3. -/
structure KeyMatch where
  ws : Nat
  keyRaw : String
  value : String
deriving DecidableEq, Repr

/-- `line.match(/^(\s*)([^:]+):\s*(.*)/)`.  The match succeeds exactly
when the line has a colon preceded by at least one character; greedy
`\s*` takes the leading whitespace (backing off one character when
everything before the colon is whitespace, so that `[^:]+` is
nonempty), `[^:]+` the rest up to the first colon, and `\s*(.*)` strips
the whitespace directly after the colon. -/
def matchKeyLine (line : String) : Option KeyMatch :=
  let cs := line.toList
  match cs.findIdx? (fun c => c == ':') with
  | none => none
  | some i =>
      if i = 0 then none
      else
        let ws := min (cs.takeWhile jsIsSpace).length (i - 1)
        let keyRaw := ((cs.drop ws).take (i - ws)).asString
        let value := ((cs.drop (i + 1)).dropWhile jsIsSpace).asString
        some { ws := ws, keyRaw := keyRaw, value := value }

/-- `getIndentLevel`: the length of the leading whitespace run. -/
def getIndentLevel (line : String) : Nat :=
  (line.toList.takeWhile jsIsSpace).length

/-- A text document as the parser sees it: `uri` is
`document.uri.toString()`, `relativePath` the host's
`vscode.workspace.asRelativePath(document.uri)`, and `text` the
document content. -/
structure TextDocument where
  uri : String
  relativePath : String
  text : String
deriving DecidableEq, Repr

/-- `YamlStructureParser.getFilePathComponents`: strip a `.yaml`/`.yml`
extension from the workspace-relative path, split on `/`, drop empty
segments, and drop the final component (the file name). -/
def getFilePathComponents (doc : TextDocument) : List String :=
  let pathWithoutExtension :=
    if strEndsWith doc.relativePath ".yaml" then
      (doc.relativePath.toList.take (doc.relativePath.toList.length - 5)).asString
    else if strEndsWith doc.relativePath ".yml" then
      (doc.relativePath.toList.take (doc.relativePath.toList.length - 4)).asString
    else doc.relativePath
  let pathParts := (jsSplit '/' pathWithoutExtension).filter (fun p => p ≠ "")
  pathParts.dropLast

/-- The loop body of `parseFile` restricted to its effect on the frame
stack (no emission): skip blanks and comments, otherwise pop frames at
greater-or-equal indentation and push the new key when its value is
empty or opens a flow collection. -/
def stackStep (st : List StackFrame) (line : String) : List StackFrame :=
  let trimmed := jsTrim line
  if trimmed = "" || strStartsWith trimmed "#" then st
  else
    match matchKeyLine line with
    | none => st
    | some km =>
        let indent := getIndentLevel line
        let key := jsTrim km.keyRaw
        let popped := st.dropWhile (fun f => indent ≤ f.indent)
        let value := jsTrim km.value
        if value = "" || value = "\x7b" || value = "[" then
          { key := key, indent := indent } :: popped
        else popped

/-- The line loop of `parseFile`.  `P` is the file-path component
prefix, `lineNum` the current line number, `st` the frame stack and
`nid` the next fresh object id (each emitted definition is a fresh
JavaScript object). -/
def parseLines (uri : String) (P : List String) :
    Nat → List StackFrame → Nat → List String → List YamlKeyDefinition
  | _, _, _, [] => []
  | lineNum, st, nid, line :: rest =>
      let trimmed := jsTrim line
      if trimmed = "" || strStartsWith trimmed "#" then
        parseLines uri P (lineNum + 1) st nid rest
      else
        match matchKeyLine line with
        | none => parseLines uri P (lineNum + 1) st nid rest
        | some km =>
            let indent := getIndentLevel line
            let key := jsTrim km.keyRaw
            let popped := st.dropWhile (fun f => indent ≤ f.indent)
            let logicalPath := P ++ (popped.reverse.map (fun f => f.key)) ++ [key]
            let d : YamlKeyDefinition :=
              { logicalPath := logicalPath
                fileUri := uri
                position := { line := lineNum, character := km.ws }
                range :=
                  { startLine := lineNum, startChar := km.ws
                    endLine := lineNum, endChar := km.ws + key.length }
                defId := nid }
            let value := jsTrim km.value
            let st2 :=
              if value = "" || value = "\x7b" || value = "[" then
                { key := key, indent := indent } :: popped
              else popped
            d :: parseLines uri P (lineNum + 1) st2 (nid + 1) rest

/-- `YamlStructureParser.parseFile`.  `startId` seeds the fresh object
ids of the emitted definitions. -/
def parseFile (startId : Nat) (doc : TextDocument) : List YamlKeyDefinition :=
  parseLines doc.uri (getFilePathComponents doc) 0 [] startId (jsSplit '\n' doc.text)

/-! ## Workspace indexer and resolution -/

/-- The add-all loop of `YamlWorkspaceIndexer.indexFile`. -/
def addAll (idx : ReversePathIndex) (ds : List YamlKeyDefinition) : ReversePathIndex :=
  ds.foldl addDefinition idx

/-- `interpolationPath.split('.').map(s => s.trim()).filter(Boolean)`
from `resolveInterpolation`. -/
def parseInterpolationComponents (interpolationPath : String) : List String :=
  ((jsSplit '.' interpolationPath).map jsTrim).filter (fun s => s ≠ "")

/-- The workspace-isolation step of `resolveInterpolation`: when
enabled and the source document has a workspace folder, keep only
matches whose owning document's workspace folder is the same;
otherwise pass everything through.  `wsOf` models
`vscode.workspace.getWorkspaceFolder` (by folder uri). -/
def isolationFilter (cfg : HydralanceConfig) (wsOf : String → Option String)
    (sourceUri : String) (foundMatches : List YamlMatch) : List YamlMatch :=
  if cfg.isolateWorkspaceFolders then
    match wsOf sourceUri with
    | some srcWs =>
        foundMatches.filter (fun m => wsOf m.definition.fileUri == some srcWs)
    | none => foundMatches
  else foundMatches

/-- `HydraInterpolationDefinitionProvider.resolveInterpolation` up to
(and including) the workspace-isolation step; `none` models the
`undefined` early returns. -/
def resolveInterpolationMatches (idx : ReversePathIndex) (cfg : HydralanceConfig)
    (wsOf : String → Option String) (interpolationPath : String)
    (sourceUri : String) : Option (List YamlMatch) :=
  let pathComponents := parseInterpolationComponents interpolationPath
  if pathComponents.isEmpty then none
  else
    let foundMatches := findMatches idx cfg pathComponents
    if foundMatches.isEmpty then none
    else
      let filteredMatches := isolationFilter cfg wsOf sourceUri foundMatches
      if filteredMatches.isEmpty then none else some filteredMatches

/-- A `vscode.Location` as produced at the end of
`resolveInterpolation`. -/
structure VLocation where
  uri : String
  range : VRange
deriving DecidableEq, Repr

/-- The full `resolveInterpolation`: the match pipeline followed by the
conversion of each surviving match to a `vscode.Location`. -/
def resolveInterpolation (idx : ReversePathIndex) (cfg : HydralanceConfig)
    (wsOf : String → Option String) (interpolationPath : String)
    (sourceUri : String) : Option (List VLocation) :=
  (resolveInterpolationMatches idx cfg wsOf interpolationPath sourceUri).map
    (fun ms => ms.map (fun m => { uri := m.definition.fileUri, range := m.definition.range }))

/-- Modelled from the spec: the resolution pipeline as §4.4 of the
design document orders it, with the workspace-isolation filter applied
to the deduplicated, sorted match list before the `filterMode` filter.
The repository's code orders the two stages the other way around; this
definition exists only to be compared against
`resolveInterpolationMatches`. -/
def resolveInterpolationIsolationFirst (idx : ReversePathIndex) (cfg : HydralanceConfig)
    (wsOf : String → Option String) (interpolationPath : String)
    (sourceUri : String) : Option (List YamlMatch) :=
  let pathComponents := parseInterpolationComponents interpolationPath
  if pathComponents.isEmpty then none
  else
    let deduped := sortMatches (dedupMatches (rawMatches idx pathComponents))
    let isolated := isolationFilter cfg wsOf sourceUri deduped
    let final := applyMatchFilter cfg isolated pathComponents.length
    if final.isEmpty then none else some final

/-! ## Proof-side predicates and helpers -/

/-- No bucket of a reverse-index map is empty: `removeFile` deletes a
bucket rather than storing `[]`, and `addDefinition` only appends, so
this holds in every reachable state. -/
def NoEmptyBuckets (m : List (String × List YamlKeyDefinition)) : Prop :=
  ∀ e ∈ m, e.2 ≠ ([] : List YamlKeyDefinition)

/-- The object identity `id` occurs nowhere in the map — true of every
freshly constructed `YamlKeyDefinition` because each `new` yields a
reference distinct from everything already stored. -/
def IdFresh (m : List (String × List YamlKeyDefinition)) (id : Nat) : Prop :=
  ∀ e ∈ m, ∀ d ∈ e.2, d.defId ≠ id

/-- Internal coherence of the two maps of `ReversePathIndex`: every
definition registered in a suffix bucket is also recorded in the
file-index list of its owning document, and only under keys that are
suffixes of its own logical path.  `addDefinition` establishes this and
`removeFile` preserves it. -/
def Coherent (idx : ReversePathIndex) : Prop :=
  ∀ e ∈ idx.reverseIndex, ∀ d ∈ e.2,
    d ∈ (mapGet idx.fileIndex d.fileUri).getD [] ∧ e.1 ∈ suffixKeys d.logicalPath

instance (m : List (String × List YamlKeyDefinition)) : Decidable (NoEmptyBuckets m) := by
  unfold NoEmptyBuckets
  infer_instance

instance {α : Type} (m : List (String × α)) : Decidable (NodupKeys m) := by
  unfold NodupKeys
  infer_instance

instance (m : List (String × List YamlKeyDefinition)) (id : Nat) :
    Decidable (IdFresh m id) := by
  unfold IdFresh
  infer_instance

instance (idx : ReversePathIndex) : Decidable (Coherent idx) := by
  unfold Coherent
  infer_instance

/-- The effect of one `addDefinition` bucket push on the value stored
at one key (pointwise view of `addToBucket`). -/
def addAt (b : Option (List YamlKeyDefinition)) (d : YamlKeyDefinition) :
    Option (List YamlKeyDefinition) :=
  some (b.getD [] ++ [d])

/-- The effect of one `removeFile` bucket filter on the value stored at
one key (pointwise view of `filterBucket`): filter out the identity,
and delete the bucket when nothing remains. -/
def remAt (b : Option (List YamlKeyDefinition)) (id : Nat) :
    Option (List YamlKeyDefinition) :=
  let f := (b.getD []).filter (fun d => d.defId != id)
  if f.isEmpty then none else some f

/-- The number of registrations carried by the bucket at key `s` for
the object identity `id`. -/
def bucketCount (m : List (String × List YamlKeyDefinition)) (s : String) (id : Nat) : Nat :=
  ((mapGet m s).getD []).countP (fun d => d.defId == id)

/-- The largest `matchLevel` present in a list of matches (`0` when the
list is empty). -/
def maxMatchLevel (ms : List YamlMatch) : Nat :=
  ms.foldr (fun m acc => max m.matchLevel acc) 0

/-- The parser's frame stack after scanning the first `i` lines,
recomputed from scratch: the open ancestor chain at line `i` (innermost
frame first). -/
def chainAt (lines : List String) (i : Nat) : List StackFrame :=
  (lines.take i).foldl stackStep []

/-! ## Concrete example material -/

/-- The document of the spec scenario: `a/b/name.yaml` containing the
single key line `value: 1`. -/
def exDoc : TextDocument :=
  { uri := "file:ws/a/b/name.yaml", relativePath := "a/b/name.yaml", text := "value: 1" }

/-- The index holding exactly the definitions of `exDoc`. -/
def exIdx : ReversePathIndex := addAll emptyIndex (parseFile 0 exDoc)

/-- A definition with logical path `[x]` owned by a document in
workspace folder `w1`. -/
def exDefX : YamlKeyDefinition :=
  { logicalPath := ["x"], fileUri := "w1/a.yaml",
    position := { line := 0, character := 0 },
    range := { startLine := 0, startChar := 0, endLine := 0, endChar := 1 },
    defId := 0 }

/-- A definition with logical path `[y, x]` owned by a document in
workspace folder `w2`. -/
def exDefYX : YamlKeyDefinition :=
  { logicalPath := ["y", "x"], fileUri := "w2/b.yaml",
    position := { line := 1, character := 0 },
    range := { startLine := 1, startChar := 0, endLine := 1, endChar := 1 },
    defId := 1 }

/-- A two-workspace index: `exDefX` in `w1`, `exDefYX` in `w2`. -/
def exIdx2 : ReversePathIndex := addAll emptyIndex [exDefX, exDefYX]

/-- The workspace-folder assignment of the two-workspace scenario. -/
def exWsOf : String → Option String := fun u =>
  if u = "w1/a.yaml" then some "w1"
  else if u = "w1/src.yaml" then some "w1"
  else if u = "w2/b.yaml" then some "w2"
  else none

/-- A definition with path `[x]` owned by `f.yaml` (object id 2). -/
def exDef0 : YamlKeyDefinition :=
  { logicalPath := ["x"], fileUri := "f.yaml",
    position := { line := 0, character := 0 },
    range := { startLine := 0, startChar := 0, endLine := 0, endChar := 1 },
    defId := 2 }

/-- A second, fresh definition record with the same path and owner as
`exDef0` (object id 3), as produced by re-parsing `f.yaml`. -/
def exDef1 : YamlKeyDefinition :=
  { logicalPath := ["x"], fileUri := "f.yaml",
    position := { line := 0, character := 0 },
    range := { startLine := 0, startChar := 0, endLine := 0, endChar := 1 },
    defId := 3 }

/-- An index already holding `exDef0` for `f.yaml`. -/
def exIdx7 : ReversePathIndex := addDefinition emptyIndex exDef0

/-- A fresh definition with path `[z]` owned by `g.yaml` (object id 4). -/
def exDefG : YamlKeyDefinition :=
  { logicalPath := ["z"], fileUri := "g.yaml",
    position := { line := 0, character := 0 },
    range := { startLine := 0, startChar := 0, endLine := 0, endChar := 1 },
    defId := 5 }

/-- Two further definitions used to build a result set with match
levels `[3, 3, 2, 1]` over four distinct documents. -/
def exDefC : YamlKeyDefinition :=
  { logicalPath := ["c"], fileUri := "c.yaml",
    position := { line := 0, character := 0 },
    range := { startLine := 0, startChar := 0, endLine := 0, endChar := 1 },
    defId := 6 }

/-- See `exDefC`. -/
def exDefD : YamlKeyDefinition :=
  { logicalPath := ["d"], fileUri := "d.yaml",
    position := { line := 0, character := 0 },
    range := { startLine := 0, startChar := 0, endLine := 0, endChar := 1 },
    defId := 7 }

/-- A deduplicated, sorted result set with match levels `[3, 3, 2, 1]`. -/
def exResults3321 : List YamlMatch :=
  [ { definition := exDefX, matchLevel := 3 },
    { definition := exDefYX, matchLevel := 3 },
    { definition := exDefC, matchLevel := 2 },
    { definition := exDefD, matchLevel := 1 } ]

/-- A nested document: directory component `conf`, keys
`a`, `a.b`, `a.c`, `a.c.d` and `e`. -/
def exDocNest : TextDocument :=
  { uri := "file:ws/conf/test.yaml", relativePath := "conf/test.yaml",
    text := "a:\n  b: 1\n  c:\n    d: 2\ne: 3" }

/-! ## Association-list map lemmas -/

theorem mapGet_eq_none_iff {α : Type} {m : List (String × α)} {k : String} :
    mapGet m k = none ↔ ∀ e ∈ m, e.1 ≠ k := by
  induction m with
  | nil => simp [mapGet]
  | cons e rest ih =>
      obtain ⟨k1, v1⟩ := e
      by_cases h : k1 = k
      · subst h
        simp [mapGet]
      · simp [mapGet, h, ih]

theorem mapGet_split {α : Type} {m : List (String × α)} {k : String} {v : α}
    (h : mapGet m k = some v) :
    ∃ m₁ m₂, m = m₁ ++ (k, v) :: m₂ ∧ ∀ e ∈ m₁, e.1 ≠ k := by
  induction m with
  | nil => simp [mapGet] at h
  | cons e rest ih =>
      obtain ⟨k1, v1⟩ := e
      by_cases hk : k1 = k
      · subst hk
        simp [mapGet] at h
        subst h
        exact ⟨[], rest, by simp, by simp⟩
      · simp [mapGet, hk] at h
        obtain ⟨m₁, m₂, heq, hne⟩ := ih h
        refine ⟨(k1, v1) :: m₁, m₂, by simp [heq], ?_⟩
        intro e he
        rcases List.mem_cons.mp he with h1 | h1
        · subst h1; exact hk
        · exact hne e h1

theorem mapGet_append_left {α : Type} {m₁ : List (String × α)} (m₂ : List (String × α))
    {k : String} (h : ∀ e ∈ m₁, e.1 ≠ k) : mapGet (m₁ ++ m₂) k = mapGet m₂ k := by
  induction m₁ with
  | nil => simp
  | cons e rest ih =>
      obtain ⟨k1, v1⟩ := e
      have hk : k1 ≠ k := h (k1, v1) (by simp)
      simp only [List.cons_append, mapGet, hk, if_false]
      exact ih (fun e he => h e (List.mem_cons_of_mem _ he))

theorem mapGet_split_get {α : Type} {m₁ m₂ : List (String × α)} {k : String} {v : α}
    (h : ∀ e ∈ m₁, e.1 ≠ k) : mapGet (m₁ ++ (k, v) :: m₂) k = some v := by
  rw [mapGet_append_left _ h]
  simp [mapGet]

theorem mapSet_of_get_none {α : Type} {m : List (String × α)} {k : String}
    (h : mapGet m k = none) (v : α) : mapSet m k v = m ++ [(k, v)] := by
  induction m with
  | nil => simp [mapSet]
  | cons e rest ih =>
      obtain ⟨k1, v1⟩ := e
      by_cases hk : k1 = k
      · subst hk; simp [mapGet] at h
      · simp [mapGet, hk] at h
        simp [mapSet, hk, ih h]

theorem mapSet_split {α : Type} {m₁ m₂ : List (String × α)} {k : String}
    (h : ∀ e ∈ m₁, e.1 ≠ k) (v0 v : α) :
    mapSet (m₁ ++ (k, v0) :: m₂) k v = m₁ ++ (k, v) :: m₂ := by
  induction m₁ with
  | nil => simp [mapSet]
  | cons e rest ih =>
      obtain ⟨k1, v1⟩ := e
      have hk : k1 ≠ k := h (k1, v1) (by simp)
      simp only [List.cons_append, mapSet, hk, if_false, List.cons.injEq, true_and]
      exact ih (fun e he => h e (List.mem_cons_of_mem _ he))

theorem mapDelete_of_get_none {α : Type} {m : List (String × α)} {k : String}
    (h : mapGet m k = none) : mapDelete m k = m := by
  induction m with
  | nil => simp [mapDelete]
  | cons e rest ih =>
      obtain ⟨k1, v1⟩ := e
      by_cases hk : k1 = k
      · subst hk; simp [mapGet] at h
      · simp [mapGet, hk] at h
        simp [mapDelete, hk, ih h]

theorem mapDelete_split {α : Type} {m₁ m₂ : List (String × α)} {k : String}
    (h : ∀ e ∈ m₁, e.1 ≠ k) (v0 : α) :
    mapDelete (m₁ ++ (k, v0) :: m₂) k = m₁ ++ m₂ := by
  induction m₁ with
  | nil => simp [mapDelete]
  | cons e rest ih =>
      obtain ⟨k1, v1⟩ := e
      have hk : k1 ≠ k := h (k1, v1) (by simp)
      simp only [List.cons_append, mapDelete, hk, if_false, List.cons.injEq, true_and]
      exact ih (fun e he => h e (List.mem_cons_of_mem _ he))

theorem mapGet_mapSet_self {α : Type} {m : List (String × α)} {k : String} (v : α) :
    mapGet (mapSet m k v) k = some v := by
  induction m with
  | nil => simp [mapSet, mapGet]
  | cons e rest ih =>
      obtain ⟨k1, v1⟩ := e
      by_cases hk : k1 = k
      · subst hk; simp [mapSet, mapGet]
      · simp [mapSet, mapGet, hk, ih]

theorem mapGet_mapSet_ne {α : Type} {m : List (String × α)} {k x : String} (v : α)
    (h : x ≠ k) : mapGet (mapSet m k v) x = mapGet m x := by
  have hks : ¬k = x := fun hh => h hh.symm
  induction m with
  | nil => simp [mapSet, mapGet, hks]
  | cons e rest ih =>
      obtain ⟨k1, v1⟩ := e
      by_cases hk : k1 = k
      · subst hk
        simp [mapSet, mapGet, hks]
      · simp [mapSet, mapGet, hk, ih]

theorem mapGet_mapDelete_ne {α : Type} {m : List (String × α)} {k x : String}
    (h : x ≠ k) : mapGet (mapDelete m k) x = mapGet m x := by
  have hks : ¬k = x := fun hh => h hh.symm
  induction m with
  | nil => simp [mapDelete]
  | cons e rest ih =>
      obtain ⟨k1, v1⟩ := e
      by_cases hk : k1 = k
      · subst hk
        simp [mapDelete, mapGet, hks]
      · simp [mapDelete, mapGet, hk, ih]

theorem mem_mapSet {α : Type} {m : List (String × α)} {k : String} {v : α} {e : String × α}
    (h : e ∈ mapSet m k v) : e ∈ m ∨ e = (k, v) := by
  induction m with
  | nil => simp [mapSet] at h; simp [h]
  | cons e1 rest ih =>
      obtain ⟨k1, v1⟩ := e1
      by_cases hk : k1 = k
      · subst hk
        simp [mapSet] at h
        rcases h with h | h
        · exact Or.inr (by simp [h])
        · exact Or.inl (by simp [h])
      · simp [mapSet, hk] at h
        rcases h with h | h
        · exact Or.inl (by simp [h])
        · rcases ih h with h1 | h1
          · exact Or.inl (List.mem_cons_of_mem _ h1)
          · exact Or.inr h1

theorem mem_mapDelete {α : Type} {m : List (String × α)} {k : String} {e : String × α}
    (h : e ∈ mapDelete m k) : e ∈ m := by
  induction m with
  | nil => simp [mapDelete] at h
  | cons e1 rest ih =>
      obtain ⟨k1, v1⟩ := e1
      by_cases hk : k1 = k
      · subst hk
        simp only [mapDelete, if_pos rfl] at h
        exact List.mem_cons_of_mem _ h
      · simp only [mapDelete, if_neg hk, List.mem_cons] at h
        rcases h with h | h
        · exact List.mem_cons.mpr (Or.inl h)
        · exact List.mem_cons_of_mem _ (ih h)

theorem mapGet_append {α : Type} (m₁ m₂ : List (String × α)) (k : String) :
    mapGet (m₁ ++ m₂) k =
      match mapGet m₁ k with
      | some v => some v
      | none => mapGet m₂ k := by
  induction m₁ with
  | nil => simp [mapGet]
  | cons e rest ih =>
      obtain ⟨k1, v1⟩ := e
      by_cases hk : k1 = k
      · simp [mapGet, hk]
      · simp [mapGet, hk, ih]

theorem mapGet_mem {α : Type} {m : List (String × α)} {k : String} {v : α}
    (h : mapGet m k = some v) : (k, v) ∈ m := by
  obtain ⟨m₁, m₂, heq, -⟩ := mapGet_split h
  subst heq
  simp

theorem mapGet_of_mem {α : Type} {m : List (String × α)} {k : String} {v : α}
    (hn : NodupKeys m) (h : (k, v) ∈ m) : mapGet m k = some v := by
  induction m with
  | nil => simp at h
  | cons e rest ih =>
      obtain ⟨k1, v1⟩ := e
      have hn1 : k1 ∉ rest.map Prod.fst := (List.nodup_cons.mp hn).1
      have hn2 : NodupKeys rest := (List.nodup_cons.mp hn).2
      rcases List.mem_cons.mp h with h1 | h1
      · cases h1
        simp [mapGet]
      · have hk : k1 ≠ k := by
          intro hh
          subst hh
          exact hn1 (List.mem_map.mpr ⟨(k1, v), h1, rfl⟩)
        simp [mapGet, hk, ih hn2 h1]

theorem nodupKeys_nil {α : Type} : NodupKeys ([] : List (String × α)) := by
  simp [NodupKeys]

theorem keys_mapSet_subset {α : Type} {m : List (String × α)} {k x : String} {v : α}
    (h : x ∈ (mapSet m k v).map Prod.fst) : x ∈ m.map Prod.fst ∨ x = k := by
  obtain ⟨e, he, hx⟩ := List.mem_map.mp h
  rcases mem_mapSet he with h1 | h1
  · exact Or.inl (List.mem_map.mpr ⟨e, h1, hx⟩)
  · subst h1
    exact Or.inr hx.symm

theorem nodupKeys_mapSet {α : Type} {m : List (String × α)} {k : String} (v : α)
    (hn : NodupKeys m) : NodupKeys (mapSet m k v) := by
  induction m with
  | nil => simp [mapSet, NodupKeys]
  | cons e rest ih =>
      obtain ⟨k1, v1⟩ := e
      have hn1 : k1 ∉ rest.map Prod.fst := (List.nodup_cons.mp hn).1
      have hn2 : NodupKeys rest := (List.nodup_cons.mp hn).2
      by_cases hk : k1 = k
      · subst hk
        simpa [mapSet, NodupKeys] using hn
      · have : NodupKeys (mapSet rest k v) := ih hn2
        simp only [mapSet, if_neg hk]
        refine List.nodup_cons.mpr ⟨?_, this⟩
        intro hmem
        rcases keys_mapSet_subset (by simpa using hmem) with h1 | h1
        · exact hn1 h1
        · exact hk h1

theorem nodupKeys_mapDelete {α : Type} {m : List (String × α)} {k : String}
    (hn : NodupKeys m) : NodupKeys (mapDelete m k) := by
  induction m with
  | nil => simp [mapDelete, NodupKeys]
  | cons e rest ih =>
      obtain ⟨k1, v1⟩ := e
      have hn1 : k1 ∉ rest.map Prod.fst := (List.nodup_cons.mp hn).1
      have hn2 : NodupKeys rest := (List.nodup_cons.mp hn).2
      by_cases hk : k1 = k
      · simpa [mapDelete, hk] using hn2
      · simp only [NodupKeys, mapDelete, if_neg hk, List.map_cons]
        refine List.nodup_cons.mpr ⟨?_, ih hn2⟩
        intro hmem
        obtain ⟨e, he, hx⟩ := List.mem_map.mp hmem
        exact hn1 (List.mem_map.mpr ⟨e, mem_mapDelete he, hx⟩)

theorem nodupKeys_append_fresh {α : Type} {m : List (String × α)} {k : String} (v : α)
    (hn : NodupKeys m) (h : mapGet m k = none) : NodupKeys (m ++ [(k, v)]) := by
  have hk : ∀ e ∈ m, e.1 ≠ k := mapGet_eq_none_iff.mp h
  simp only [NodupKeys, List.map_append, List.map_cons, List.map_nil]
  rw [List.nodup_append]
  refine ⟨hn, by simp, ?_⟩
  intro x hx
  obtain ⟨e, he, hxe⟩ := List.mem_map.mp hx
  simp only [List.mem_singleton]
  intro hxk
  exact hk e he (by rw [← hxe] at hxk; exact hxk)

theorem mapGet_mapDelete_self {α : Type} {m : List (String × α)} {k : String}
    (hn : NodupKeys m) : mapGet (mapDelete m k) k = none := by
  induction m with
  | nil => simp [mapDelete, mapGet]
  | cons e rest ih =>
      obtain ⟨k1, v1⟩ := e
      have hn1 : k1 ∉ rest.map Prod.fst := (List.nodup_cons.mp hn).1
      have hn2 : NodupKeys rest := (List.nodup_cons.mp hn).2
      by_cases hk : k1 = k
      · subst hk
        simp only [mapDelete, if_pos rfl]
        exact mapGet_eq_none_iff.mpr (fun e he hke => hn1 (List.mem_map.mpr ⟨e, he, hke⟩))
      · simp [mapDelete, mapGet, hk, ih hn2]

/-! ## Pointwise behaviour of the bucket operations -/

theorem get_addToBucket (m : List (String × List YamlKeyDefinition)) (s : String)
    (d : YamlKeyDefinition) (x : String) :
    mapGet (addToBucket m s d) x =
      if x = s then addAt (mapGet m s) d else mapGet m x := by
  unfold addToBucket addAt
  cases h : mapGet m s with
  | none =>
      have hall : ∀ e ∈ m, e.1 ≠ s := mapGet_eq_none_iff.mp h
      by_cases hx : x = s
      · subst hx
        rw [mapGet_append_left _ hall]
        simp [mapGet, h]
      · rw [mapGet_append]
        cases hgx : mapGet m x with
        | none =>
            have hxs : ¬s = x := fun hh => hx hh.symm
            simp [mapGet, hxs, hx]
        | some v => simp [hx]
  | some ds =>
      by_cases hx : x = s
      · subst hx
        simp [mapGet_mapSet_self, h]
      · simp [mapGet_mapSet_ne _ hx, hx]

theorem filterBucket_eq (m : List (String × List YamlKeyDefinition)) (s : String)
    (id : Nat) :
    filterBucket m s id =
      if (((mapGet m s).getD []).filter (fun d => d.defId != id)).isEmpty then
        mapDelete m s
      else mapSet m s (((mapGet m s).getD []).filter (fun d => d.defId != id)) := rfl

theorem get_filterBucket {m : List (String × List YamlKeyDefinition)} (s : String)
    (id : Nat) (x : String) (hn : NodupKeys m) :
    mapGet (filterBucket m s id) x =
      if x = s then remAt (mapGet m s) id else mapGet m x := by
  rw [filterBucket_eq]
  unfold remAt
  cases hf : ((mapGet m s).getD []).filter (fun d => d.defId != id) with
  | nil =>
      simp only [hf, List.isEmpty_nil, if_pos rfl]
      by_cases hx : x = s
      · subst hx
        simp [mapGet_mapDelete_self hn]
      · simp [mapGet_mapDelete_ne hx, hx]
  | cons f0 frest =>
      have hne : ((f0 :: frest : List YamlKeyDefinition).isEmpty = true) = False := by simp
      simp only [hf, hne, if_false]
      by_cases hx : x = s
      · subst hx
        simp [mapGet_mapSet_self]
      · simp [mapGet_mapSet_ne _ hx, hx]

theorem nodupKeys_addToBucket {m : List (String × List YamlKeyDefinition)} (s : String)
    (d : YamlKeyDefinition) (hn : NodupKeys m) : NodupKeys (addToBucket m s d) := by
  unfold addToBucket
  cases h : mapGet m s with
  | none => exact nodupKeys_append_fresh _ hn h
  | some ds => exact nodupKeys_mapSet _ hn

theorem nodupKeys_filterBucket {m : List (String × List YamlKeyDefinition)} (s : String)
    (id : Nat) (hn : NodupKeys m) : NodupKeys (filterBucket m s id) := by
  rw [filterBucket_eq]
  split
  · exact nodupKeys_mapDelete hn
  · exact nodupKeys_mapSet _ hn

theorem noEmptyBuckets_addToBucket {m : List (String × List YamlKeyDefinition)} (s : String)
    (d : YamlKeyDefinition) (hn : NoEmptyBuckets m) : NoEmptyBuckets (addToBucket m s d) := by
  unfold addToBucket
  cases h : mapGet m s with
  | none =>
      intro e he
      rcases List.mem_append.mp he with h1 | h1
      · exact hn e h1
      · simp only [List.mem_singleton] at h1
        subst h1
        simp
  | some ds =>
      intro e he
      rcases mem_mapSet he with h1 | h1
      · exact hn e h1
      · subst h1
        simp

theorem noEmptyBuckets_filterBucket {m : List (String × List YamlKeyDefinition)} (s : String)
    (id : Nat) (hn : NoEmptyBuckets m) : NoEmptyBuckets (filterBucket m s id) := by
  rw [filterBucket_eq]
  split
  · intro e he
    exact hn e (mem_mapDelete he)
  · rename_i hne
    intro e he
    rcases mem_mapSet he with h1 | h1
    · exact hn e h1
    · subst h1
      intro hcontra
      simp only [Prod.snd] at hcontra
      rw [hcontra] at hne
      simp at hne

/-! ## Suffix-key lemmas -/

theorem length_asString (l : List Char) : (l.asString).length = l.length := rfl

theorem suffixKeys_length (path : List String) :
    (suffixKeys path).length = path.length := by
  simp [suffixKeys]

theorem joinDotsL_cons_length (s : List Char) {t : List (List Char)} (ht : t ≠ []) :
    (joinDotsL (s :: t)).length = s.length + 1 + (joinDotsL t).length := by
  cases t with
  | nil => exact absurd rfl ht
  | cons a u =>
      simp only [joinDotsL, List.length_append, List.length_cons]
      omega

theorem suffixKey_length_lt {path : List String} {i : Nat} (h : i + 1 < path.length) :
    (suffixKey path (i + 1)).length < (suffixKey path i).length := by
  have hi : i < path.length := by omega
  have hdrop : path.drop i = path[i] :: path.drop (i + 1) := List.drop_eq_getElem_cons hi
  have hne : (path.drop (i + 1)).map String.toList ≠ [] := by
    have : (path.drop (i + 1)).length = path.length - (i + 1) := List.length_drop _ _
    intro hcon
    have := List.map_eq_nil_iff.mp hcon
    rw [this] at *
    simp at *
    omega
  unfold suffixKey joinDots
  rw [hdrop]
  simp only [List.map_cons, length_asString]
  rw [joinDotsL_cons_length _ hne]
  omega

theorem suffixKey_length_strict {path : List String} :
    ∀ {i j : Nat}, i < j → j < path.length →
      (suffixKey path j).length < (suffixKey path i).length := by
  intro i j
  induction j with
  | zero => omega
  | succ j ih =>
      intro hij hj
      rcases Nat.lt_succ_iff_lt_or_eq.mp hij with h | h
      · exact lt_trans (suffixKey_length_lt hj) (ih h (by omega))
      · subst h
        exact suffixKey_length_lt hj

theorem suffixKeys_nodup (path : List String) : (suffixKeys path).Nodup := by
  unfold suffixKeys
  refine List.Nodup.map_on ?_ (List.nodup_range _)
  intro i hi j hj hf
  simp only [List.mem_range] at hi hj
  rcases lt_trichotomy i j with h | h | h
  · have := suffixKey_length_strict h hj
    rw [hf] at this
    omega
  · exact h
  · have := suffixKey_length_strict h hi
    rw [hf] at this
    omega

theorem mem_suffixKeys_iff {path : List String} {s : String} :
    s ∈ suffixKeys path ↔ ∃ i, i < path.length ∧ s = suffixKey path i := by
  simp only [suffixKeys, List.mem_map, List.mem_range]
  constructor
  · rintro ⟨i, hi, rfl⟩
    exact ⟨i, hi, rfl⟩
  · rintro ⟨i, hi, rfl⟩
    exact ⟨i, hi, rfl⟩

/-! ## Pointwise behaviour of the index operations -/

theorem get_foldl_addToBucket (keys : List String) (d : YamlKeyDefinition) :
    ∀ (m : List (String × List YamlKeyDefinition)) (x : String), keys.Nodup →
      mapGet (keys.foldl (fun m s => addToBucket m s d) m) x =
        if x ∈ keys then addAt (mapGet m x) d else mapGet m x := by
  induction keys with
  | nil => intro m x _; simp
  | cons s ks ih =>
      intro m x hk
      have hs : s ∉ ks := (List.nodup_cons.mp hk).1
      have hks : ks.Nodup := (List.nodup_cons.mp hk).2
      simp only [List.foldl_cons]
      rw [ih _ _ hks]
      by_cases hx : x ∈ ks
      · rw [if_pos hx, if_pos (List.mem_cons_of_mem _ hx)]
        have hxs : x ≠ s := fun hh => hs (hh ▸ hx)
        rw [get_addToBucket, if_neg hxs]
      · rw [if_neg hx, get_addToBucket]
        by_cases hxs : x = s
        · subst hxs
          rw [if_pos rfl, if_pos (List.mem_cons_self _ _)]
        · rw [if_neg hxs, if_neg (by simp [hxs, hx])]

theorem nodupKeys_foldl_addToBucket (keys : List String) (d : YamlKeyDefinition) :
    ∀ m, NodupKeys m → NodupKeys (keys.foldl (fun m s => addToBucket m s d) m) := by
  induction keys with
  | nil => intro m hm; simpa using hm
  | cons s ks ih =>
      intro m hm
      simp only [List.foldl_cons]
      exact ih _ (nodupKeys_addToBucket _ _ hm)

theorem noEmptyBuckets_foldl_addToBucket (keys : List String) (d : YamlKeyDefinition) :
    ∀ m, NoEmptyBuckets m → NoEmptyBuckets (keys.foldl (fun m s => addToBucket m s d) m) := by
  induction keys with
  | nil => intro m hm; simpa using hm
  | cons s ks ih =>
      intro m hm
      simp only [List.foldl_cons]
      exact ih _ (noEmptyBuckets_addToBucket _ _ hm)

theorem get_foldl_filterBucket (keys : List String) (id : Nat) :
    ∀ (m : List (String × List YamlKeyDefinition)) (x : String), NodupKeys m → keys.Nodup →
      mapGet (keys.foldl (fun m2 s => filterBucket m2 s id) m) x =
        if x ∈ keys then remAt (mapGet m x) id else mapGet m x := by
  induction keys with
  | nil => intro m x _ _; simp
  | cons s ks ih =>
      intro m x hm hk
      have hs : s ∉ ks := (List.nodup_cons.mp hk).1
      have hks : ks.Nodup := (List.nodup_cons.mp hk).2
      simp only [List.foldl_cons]
      rw [ih _ _ (nodupKeys_filterBucket _ _ hm) hks]
      by_cases hx : x ∈ ks
      · rw [if_pos hx, if_pos (List.mem_cons_of_mem _ hx)]
        have hxs : x ≠ s := fun hh => hs (hh ▸ hx)
        rw [get_filterBucket _ _ _ hm, if_neg hxs]
      · rw [if_neg hx, get_filterBucket _ _ _ hm]
        by_cases hxs : x = s
        · subst hxs
          rw [if_pos rfl, if_pos (List.mem_cons_self _ _)]
        · rw [if_neg hxs, if_neg (by simp [hxs, hx])]

theorem nodupKeys_foldl_filterBucket (keys : List String) (id : Nat) :
    ∀ m, NodupKeys m → NodupKeys (keys.foldl (fun m2 s => filterBucket m2 s id) m) := by
  induction keys with
  | nil => intro m hm; simpa using hm
  | cons s ks ih =>
      intro m hm
      simp only [List.foldl_cons]
      exact ih _ (nodupKeys_filterBucket _ _ hm)

theorem noEmptyBuckets_foldl_filterBucket (keys : List String) (id : Nat) :
    ∀ m, NoEmptyBuckets m → NoEmptyBuckets (keys.foldl (fun m2 s => filterBucket m2 s id) m) := by
  induction keys with
  | nil => intro m hm; simpa using hm
  | cons s ks ih =>
      intro m hm
      simp only [List.foldl_cons]
      exact ih _ (noEmptyBuckets_filterBucket _ _ hm)

theorem addDefinition_reverseIndex (idx : ReversePathIndex) (d : YamlKeyDefinition) :
    (addDefinition idx d).reverseIndex =
      (suffixKeys d.logicalPath).foldl (fun m s => addToBucket m s d) idx.reverseIndex := rfl

theorem addDefinition_fileIndex (idx : ReversePathIndex) (d : YamlKeyDefinition) :
    (addDefinition idx d).fileIndex =
      match mapGet idx.fileIndex d.fileUri with
      | some ds => mapSet idx.fileIndex d.fileUri (ds ++ [d])
      | none => idx.fileIndex ++ [(d.fileUri, [d])] := rfl

theorem removeFile_reverseIndex (idx : ReversePathIndex) (uri : String) :
    (removeFile idx uri).reverseIndex =
      ((mapGet idx.fileIndex uri).getD []).foldl removeDefStep idx.reverseIndex := rfl

theorem removeFile_fileIndex (idx : ReversePathIndex) (uri : String) :
    (removeFile idx uri).fileIndex = mapDelete idx.fileIndex uri := rfl

theorem get_addDefinition_reverse (idx : ReversePathIndex) (d : YamlKeyDefinition)
    (x : String) :
    mapGet (addDefinition idx d).reverseIndex x =
      if x ∈ suffixKeys d.logicalPath then addAt (mapGet idx.reverseIndex x) d
      else mapGet idx.reverseIndex x := by
  rw [addDefinition_reverseIndex]
  exact get_foldl_addToBucket _ _ _ _ (suffixKeys_nodup _)

theorem get_removeDefStep {m : List (String × List YamlKeyDefinition)}
    (e : YamlKeyDefinition) (x : String) (hm : NodupKeys m) :
    mapGet (removeDefStep m e) x =
      if x ∈ suffixKeys e.logicalPath then remAt (mapGet m x) e.defId else mapGet m x := by
  unfold removeDefStep
  exact get_foldl_filterBucket _ _ _ _ hm (suffixKeys_nodup _)

theorem nodupKeys_removeDefStep {m : List (String × List YamlKeyDefinition)}
    (e : YamlKeyDefinition) (hm : NodupKeys m) : NodupKeys (removeDefStep m e) :=
  nodupKeys_foldl_filterBucket _ _ _ hm

theorem noEmptyBuckets_removeDefStep {m : List (String × List YamlKeyDefinition)}
    (e : YamlKeyDefinition) (hm : NoEmptyBuckets m) : NoEmptyBuckets (removeDefStep m e) :=
  noEmptyBuckets_foldl_filterBucket _ _ _ hm

/-! ## Chains of pointwise bucket updates -/

theorem remAt_none (id : Nat) : remAt none id = none := by
  simp [remAt]

theorem foldl_remAt_none (rs : List YamlKeyDefinition) :
    rs.foldl (fun b e => remAt b e.defId) none = none := by
  induction rs with
  | nil => rfl
  | cons r rest ih => simpa [remAt_none] using ih

theorem mem_getD_remAt {b : Option (List YamlKeyDefinition)} {id : Nat}
    {x : YamlKeyDefinition} (h : x ∈ (remAt b id).getD []) :
    x ∈ b.getD [] ∧ x.defId ≠ id := by
  simp only [remAt] at h
  by_cases he : ((b.getD []).filter (fun d => d.defId != id)).isEmpty
  · rw [if_pos he] at h
    simp at h
  · rw [if_neg he] at h
    rw [Option.getD_some] at h
    have hm := List.mem_filter.mp h
    exact ⟨hm.1, by simpa using hm.2⟩

theorem mem_getD_foldl_remAt {rs : List YamlKeyDefinition} :
    ∀ {b : Option (List YamlKeyDefinition)} {x : YamlKeyDefinition},
      x ∈ ((rs.foldl (fun b e => remAt b e.defId) b).getD []) →
      x ∈ b.getD [] ∧ ∀ e ∈ rs, x.defId ≠ e.defId := by
  induction rs with
  | nil =>
      intro b x h
      exact ⟨h, by simp⟩
  | cons r rest ih =>
      intro b x h
      simp only [List.foldl_cons] at h
      obtain ⟨h1, h2⟩ := ih h
      obtain ⟨h3, h4⟩ := mem_getD_remAt h1
      refine ⟨h3, ?_⟩
      intro e he
      rcases List.mem_cons.mp he with he1 | he1
      · subst he1; exact h4
      · exact h2 e he1

theorem countP_getD_remAt_le (b : Option (List YamlKeyDefinition)) (j id : Nat) :
    ((remAt b j).getD []).countP (fun d => d.defId == id) ≤
      (b.getD []).countP (fun d => d.defId == id) := by
  unfold remAt
  by_cases he : ((b.getD []).filter (fun d => d.defId != j)).isEmpty
  · simp [he]
  · rw [if_neg (by simp [he])]
    simp only [Option.getD_some]
    exact List.Sublist.countP_le _ (List.filter_sublist _)

theorem countP_getD_foldl_remAt_le (rs : List YamlKeyDefinition) (id : Nat) :
    ∀ b, ((rs.foldl (fun b e => remAt b e.defId) b).getD []).countP (fun d => d.defId == id) ≤
      (b.getD []).countP (fun d => d.defId == id) := by
  induction rs with
  | nil => intro b; simp
  | cons r rest ih =>
      intro b
      simp only [List.foldl_cons]
      exact le_trans (ih _) (countP_getD_remAt_le _ _ _)

theorem countP_getD_remAt_self (b : Option (List YamlKeyDefinition)) (id : Nat) :
    ((remAt b id).getD []).countP (fun d => d.defId == id) = 0 := by
  unfold remAt
  by_cases he : ((b.getD []).filter (fun d => d.defId != id)).isEmpty
  · simp [he]
  · rw [if_neg (by simp [he])]
    simp only [Option.getD_some]
    rw [List.countP_eq_zero]
    intro a ha
    have := (List.mem_filter.mp ha).2
    simpa using this

theorem countP_foldl_remAt_zero {rs : List YamlKeyDefinition} {id : Nat}
    (h : ∃ e ∈ rs, e.defId = id) (b : Option (List YamlKeyDefinition)) :
    ((rs.foldl (fun b e => remAt b e.defId) b).getD []).countP (fun d => d.defId == id) = 0 := by
  obtain ⟨e, he, hid⟩ := h
  obtain ⟨l₁, l₂, rfl⟩ := List.append_of_mem he
  rw [List.foldl_append, List.foldl_cons]
  refine Nat.le_zero.mp (le_trans (countP_getD_foldl_remAt_le _ _ _) ?_)
  rw [hid, countP_getD_remAt_self]

theorem foldl_addAt (rs : List YamlKeyDefinition) :
    ∀ b, rs ≠ [] → rs.foldl addAt b = some (b.getD [] ++ rs) := by
  induction rs with
  | nil => intro b h; exact absurd rfl h
  | cons r rest ih =>
      intro b _
      simp only [List.foldl_cons]
      by_cases hr : rest = []
      · subst hr
        simp [addAt]
      · rw [ih _ hr]
        simp [addAt]

theorem foldl_remAt_some (rs : List YamlKeyDefinition) :
    ∀ l : List YamlKeyDefinition, rs ≠ [] →
      rs.foldl (fun b e => remAt b e.defId) (some l) =
        (if (l.filter (fun x => rs.all (fun e => x.defId != e.defId))).isEmpty then none
         else some (l.filter (fun x => rs.all (fun e => x.defId != e.defId)))) := by
  induction rs with
  | nil => intro l h; exact absurd rfl h
  | cons r rest ih =>
      intro l _
      have hcomp : ∀ l' : List YamlKeyDefinition,
          (l'.filter (fun x => x.defId != r.defId)).filter
              (fun x => rest.all (fun e => x.defId != e.defId)) =
            l'.filter (fun x => (r :: rest).all (fun e => x.defId != e.defId)) := by
        intro l'
        rw [List.filter_filter]
        apply List.filter_congr
        intro x _
        simp [Bool.and_comm]
      simp only [List.foldl_cons]
      by_cases he : (l.filter (fun x => x.defId != r.defId)).isEmpty
      · have h1 : remAt (some l) r.defId = none := by
          simp only [remAt, Option.getD_some]
          rw [if_pos he]
        rw [h1, foldl_remAt_none]
        have hnil : l.filter (fun x => x.defId != r.defId) = [] := by
          simpa using he
        have h2 : l.filter (fun x => (r :: rest).all (fun e => x.defId != e.defId)) = [] := by
          rw [← hcomp, hnil]
          rfl
        rw [h2]
        simp
      · have h1 : remAt (some l) r.defId = some (l.filter (fun x => x.defId != r.defId)) := by
          simp only [remAt, Option.getD_some]
          rw [if_neg he]
        rw [h1]
        by_cases hr : rest = []
        · subst hr
          simp only [List.foldl_nil]
          have h2 : l.filter
                (fun x => (r :: ([] : List YamlKeyDefinition)).all
                  (fun e => x.defId != e.defId)) =
              l.filter (fun x => x.defId != r.defId) := by
            apply List.filter_congr
            intro x _
            simp
          rw [h2, if_neg he]
        · rw [ih _ hr, hcomp]

theorem roundTrip_point (b : Option (List YamlKeyDefinition))
    (rs : List YamlKeyDefinition)
    (hfresh : ∀ x ∈ b.getD [], ∀ e ∈ rs, x.defId ≠ e.defId)
    (hb : b ≠ some []) :
    rs.foldl (fun acc e => remAt acc e.defId) (rs.foldl addAt b) = b := by
  by_cases hr : rs = []
  · subst hr; rfl
  · rw [foldl_addAt _ _ hr, foldl_remAt_some _ _ hr]
    have hsplit : (b.getD [] ++ rs).filter (fun x => rs.all (fun e => x.defId != e.defId)) =
        b.getD [] := by
      rw [List.filter_append]
      have h1 : (b.getD []).filter (fun x => rs.all (fun e => x.defId != e.defId)) =
          b.getD [] := by
        apply List.filter_eq_self.mpr
        intro x hx
        rw [List.all_eq_true]
        intro e he
        simpa using hfresh x hx e he
      have h2 : rs.filter (fun x => rs.all (fun e => x.defId != e.defId)) = [] := by
        apply List.filter_eq_nil_iff.mpr
        intro x hx
        intro hall
        rw [List.all_eq_true] at hall
        have := hall x hx
        simp at this
      rw [h1, h2, List.append_nil]
    rw [hsplit]
    cases hbv : b with
    | none => simp
    | some l =>
        cases l with
        | nil => exact absurd hbv hb
        | cons y ys => simp

/-! ## Folds of the index operations over definition lists -/

theorem addAll_reverseIndex (ds : List YamlKeyDefinition) :
    ∀ idx : ReversePathIndex, (addAll idx ds).reverseIndex =
      ds.foldl
        (fun m d => (suffixKeys d.logicalPath).foldl (fun m2 s => addToBucket m2 s d) m)
        idx.reverseIndex := by
  induction ds with
  | nil => intro idx; rfl
  | cons d rest ih =>
      intro idx
      have h1 : addAll idx (d :: rest) = addAll (addDefinition idx d) rest := rfl
      rw [h1, ih, List.foldl_cons]
      rfl

theorem addAll_fileIndex (ds : List YamlKeyDefinition) :
    ∀ idx : ReversePathIndex, (addAll idx ds).fileIndex =
      ds.foldl
        (fun fi d =>
          match mapGet fi d.fileUri with
          | some l => mapSet fi d.fileUri (l ++ [d])
          | none => fi ++ [(d.fileUri, [d])])
        idx.fileIndex := by
  induction ds with
  | nil => intro idx; rfl
  | cons d rest ih =>
      intro idx
      have h1 : addAll idx (d :: rest) = addAll (addDefinition idx d) rest := rfl
      rw [h1, ih, List.foldl_cons]
      rfl

theorem get_addAll_reverse (ds : List YamlKeyDefinition) :
    ∀ (idx : ReversePathIndex) (x : String),
      mapGet (addAll idx ds).reverseIndex x =
        (ds.filter (fun d => decide (x ∈ suffixKeys d.logicalPath))).foldl addAt
          (mapGet idx.reverseIndex x) := by
  induction ds with
  | nil => intro idx x; rfl
  | cons d rest ih =>
      intro idx x
      have h1 : addAll idx (d :: rest) = addAll (addDefinition idx d) rest := rfl
      rw [h1, ih (addDefinition idx d) x, get_addDefinition_reverse]
      by_cases hx : x ∈ suffixKeys d.logicalPath
      · rw [if_pos hx, List.filter_cons_of_pos (by simpa using hx), List.foldl_cons]
      · rw [if_neg hx, List.filter_cons_of_neg (by simpa using hx)]

theorem get_foldl_removeDefStep (ds : List YamlKeyDefinition) :
    ∀ (m : List (String × List YamlKeyDefinition)) (x : String), NodupKeys m →
      mapGet (ds.foldl removeDefStep m) x =
        (ds.filter (fun e => decide (x ∈ suffixKeys e.logicalPath))).foldl
          (fun b e => remAt b e.defId) (mapGet m x) := by
  induction ds with
  | nil => intro m x _; rfl
  | cons e rest ih =>
      intro m x hm
      simp only [List.foldl_cons]
      rw [ih _ _ (nodupKeys_removeDefStep _ hm), get_removeDefStep _ _ hm]
      by_cases hx : x ∈ suffixKeys e.logicalPath
      · rw [if_pos hx, List.filter_cons_of_pos (by simpa using hx), List.foldl_cons]
      · rw [if_neg hx, List.filter_cons_of_neg (by simpa using hx)]

theorem nodupKeys_foldl_removeDefStep (ds : List YamlKeyDefinition) :
    ∀ m, NodupKeys m → NodupKeys (ds.foldl removeDefStep m) := by
  induction ds with
  | nil => intro m hm; simpa using hm
  | cons e rest ih =>
      intro m hm
      simp only [List.foldl_cons]
      exact ih _ (nodupKeys_removeDefStep _ hm)

theorem noEmptyBuckets_foldl_removeDefStep (ds : List YamlKeyDefinition) :
    ∀ m, NoEmptyBuckets m → NoEmptyBuckets (ds.foldl removeDefStep m) := by
  induction ds with
  | nil => intro m hm; simpa using hm
  | cons e rest ih =>
      intro m hm
      simp only [List.foldl_cons]
      exact ih _ (noEmptyBuckets_removeDefStep _ hm)

theorem fiFold_acc {F : String} :
    ∀ (ds : List YamlKeyDefinition) (m₁ m₂ : List (String × List YamlKeyDefinition))
      (cur : List YamlKeyDefinition),
      (∀ e ∈ m₁, e.1 ≠ F) → (∀ d ∈ ds, d.fileUri = F) →
      ds.foldl
        (fun fi d =>
          match mapGet fi d.fileUri with
          | some l => mapSet fi d.fileUri (l ++ [d])
          | none => fi ++ [(d.fileUri, [d])])
        (m₁ ++ (F, cur) :: m₂) = m₁ ++ (F, cur ++ ds) :: m₂ := by
  intro ds
  induction ds with
  | nil =>
      intro m₁ m₂ cur _ _
      simp
  | cons d rest ih =>
      intro m₁ m₂ cur hm₁ hds
      have huri : d.fileUri = F := hds d (List.mem_cons_self _ _)
      simp only [List.foldl_cons]
      have hstep : (match mapGet (m₁ ++ (F, cur) :: m₂) d.fileUri with
          | some l => mapSet (m₁ ++ (F, cur) :: m₂) d.fileUri (l ++ [d])
          | none => (m₁ ++ (F, cur) :: m₂) ++ [(d.fileUri, [d])]) =
          m₁ ++ (F, cur ++ [d]) :: m₂ := by
        rw [huri, mapGet_split_get hm₁]
        exact mapSet_split hm₁ cur (cur ++ [d])
      rw [hstep, ih m₁ m₂ (cur ++ [d]) hm₁ (fun e he => hds e (List.mem_cons_of_mem _ he))]
      simp

theorem addAll_fileIndex_absent {idx : ReversePathIndex} {F : String}
    {ds : List YamlKeyDefinition} (h1 : mapGet idx.fileIndex F = none)
    (h2 : ∀ d ∈ ds, d.fileUri = F) (hne : ds ≠ []) :
    (addAll idx ds).fileIndex = idx.fileIndex ++ [(F, ds)] := by
  cases ds with
  | nil => exact absurd rfl hne
  | cons d rest =>
      rw [addAll_fileIndex]
      have huri : d.fileUri = F := h2 d (List.mem_cons_self _ _)
      have hall : ∀ e ∈ idx.fileIndex, e.1 ≠ F := mapGet_eq_none_iff.mp h1
      simp only [List.foldl_cons]
      rw [huri, h1]
      have hstep : idx.fileIndex ++ [(F, [d])] = idx.fileIndex ++ (F, [d]) :: [] := rfl
      rw [hstep, fiFold_acc rest idx.fileIndex [] [d] hall
        (fun e he => h2 e (List.mem_cons_of_mem _ he))]
      rfl

theorem get_addAll_fileIndex_self {idx : ReversePathIndex} {F : String}
    {ds : List YamlKeyDefinition} (h1 : mapGet idx.fileIndex F = none)
    (h2 : ∀ d ∈ ds, d.fileUri = F) (hne : ds ≠ []) :
    mapGet (addAll idx ds).fileIndex F = some ds := by
  rw [addAll_fileIndex_absent h1 h2 hne]
  have hall : ∀ e ∈ idx.fileIndex, e.1 ≠ F := mapGet_eq_none_iff.mp h1
  exact mapGet_split_get hall

theorem delete_addAll_fileIndex {idx : ReversePathIndex} {F : String}
    {ds : List YamlKeyDefinition} (h1 : mapGet idx.fileIndex F = none)
    (h2 : ∀ d ∈ ds, d.fileUri = F) :
    mapDelete (addAll idx ds).fileIndex F = idx.fileIndex := by
  by_cases hne : ds = []
  · subst hne
    have hsame : (addAll idx ([] : List YamlKeyDefinition)).fileIndex = idx.fileIndex := rfl
    rw [hsame, mapDelete_of_get_none h1]
  · rw [addAll_fileIndex_absent h1 h2 hne]
    have hall : ∀ e ∈ idx.fileIndex, e.1 ≠ F := mapGet_eq_none_iff.mp h1
    have hdel : mapDelete (idx.fileIndex ++ [(F, ds)]) F = idx.fileIndex ++ [] :=
      mapDelete_split hall ds
    simpa using hdel

theorem get_addDefinition_fileIndex_self (idx : ReversePathIndex) (d : YamlKeyDefinition) :
    mapGet (addDefinition idx d).fileIndex d.fileUri =
      some ((mapGet idx.fileIndex d.fileUri).getD [] ++ [d]) := by
  rw [addDefinition_fileIndex]
  cases h : mapGet idx.fileIndex d.fileUri with
  | some ds =>
      simp only [Option.getD_some]
      exact mapGet_mapSet_self _
  | none =>
      simp only [Option.getD_none, List.nil_append]
      have hall : ∀ e ∈ idx.fileIndex, e.1 ≠ d.fileUri := mapGet_eq_none_iff.mp h
      exact mapGet_split_get hall

/-! ## Sort-comparator lemmas -/

theorem charListLe_total : ∀ as bs : List Char,
    charListLe as bs = true ∨ charListLe bs as = true := by
  intro as
  induction as with
  | nil => intro bs; left; rfl
  | cons a as ih =>
      intro bs
      cases bs with
      | nil => right; rfl
      | cons b bs =>
          by_cases hab : a.toNat < b.toNat
          · left
            simp [charListLe, hab]
          · by_cases hba : b.toNat < a.toNat
            · right
              simp [charListLe, hba]
            · rcases ih bs with h | h
              · left
                simp [charListLe, hab, hba, h]
              · right
                simp [charListLe, hab, hba, h]

theorem charListLe_trans : ∀ as bs cs : List Char,
    charListLe as bs = true → charListLe bs cs = true → charListLe as cs = true := by
  intro as
  induction as with
  | nil => intro bs cs _ _; rfl
  | cons a as ih =>
      intro bs cs h1 h2
      cases bs with
      | nil => simp [charListLe] at h1
      | cons b bs =>
          cases cs with
          | nil => simp [charListLe] at h2
          | cons c cs =>
              simp only [charListLe] at h1 h2 ⊢
              by_cases hab : a.toNat < b.toNat
              · by_cases hbc : b.toNat < c.toNat
                · rw [if_pos (by omega)]
                · rw [if_neg hbc] at h2
                  by_cases hcb : c.toNat < b.toNat
                  · rw [if_pos hcb] at h2
                    cases h2
                  · rw [if_pos (by omega)]
              · rw [if_neg hab] at h1
                by_cases hba : b.toNat < a.toNat
                · rw [if_pos hba] at h1
                  cases h1
                · rw [if_neg hba] at h1
                  by_cases hbc : b.toNat < c.toNat
                  · rw [if_pos (by omega)]
                  · rw [if_neg hbc] at h2
                    by_cases hcb : c.toNat < b.toNat
                    · rw [if_pos hcb] at h2
                      cases h2
                    · rw [if_neg hcb] at h2
                      rw [if_neg (by omega), if_neg (by omega)]
                      exact ih bs cs h1 h2

theorem strLe_total (a b : String) : strLe a b = true ∨ strLe b a = true :=
  charListLe_total a.toList b.toList

theorem strLe_trans {a b c : String} (h1 : strLe a b = true) (h2 : strLe b c = true) :
    strLe a c = true :=
  charListLe_trans a.toList b.toList c.toList h1 h2

theorem matchLE_total (a b : YamlMatch) : matchLE a b = true ∨ matchLE b a = true := by
  unfold matchLE
  rcases Nat.lt_trichotomy a.matchLevel b.matchLevel with h | h | h
  · right
    simp [h]
  · rcases strLe_total a.definition.fileUri b.definition.fileUri with hs | hs
    · left
      simp [h, hs]
    · right
      simp [h, hs]
  · left
    simp [h]

theorem matchLE_of_not (a b : YamlMatch) (h : matchLE a b = false) : matchLE b a = true := by
  rcases matchLE_total a b with h1 | h1
  · rw [h1] at h
    cases h
  · exact h1

theorem level_le_of_matchLE {a b : YamlMatch} (h : matchLE a b = true) :
    b.matchLevel ≤ a.matchLevel := by
  unfold matchLE at h
  rcases Bool.or_eq_true_iff.mp h with h1 | h1
  · have := of_decide_eq_true h1
    omega
  · have hb := Bool.and_eq_true_iff.mp h1
    have heq : a.matchLevel = b.matchLevel := by simpa using hb.1
    omega

theorem matchLE_trans {a b c : YamlMatch} (h1 : matchLE a b = true)
    (h2 : matchLE b c = true) : matchLE a c = true := by
  unfold matchLE at h1 h2 ⊢
  rcases Bool.or_eq_true_iff.mp h1 with ha | ha
  · have hab : b.matchLevel < a.matchLevel := of_decide_eq_true ha
    have hbc : c.matchLevel ≤ b.matchLevel := level_le_of_matchLE h2
    apply Bool.or_eq_true_iff.mpr
    left
    exact decide_eq_true (by omega)
  · obtain ⟨hl, hu⟩ := Bool.and_eq_true_iff.mp ha
    have hlev : a.matchLevel = b.matchLevel := by simpa using hl
    rcases Bool.or_eq_true_iff.mp h2 with hb | hb
    · have : c.matchLevel < b.matchLevel := of_decide_eq_true hb
      apply Bool.or_eq_true_iff.mpr
      left
      exact decide_eq_true (by omega)
    · obtain ⟨hl2, hu2⟩ := Bool.and_eq_true_iff.mp hb
      have hlev2 : b.matchLevel = c.matchLevel := by simpa using hl2
      apply Bool.or_eq_true_iff.mpr
      right
      apply Bool.and_eq_true_iff.mpr
      refine ⟨by rw [hlev, hlev2]; simp, ?_⟩
      exact strLe_trans hu hu2

theorem insertMatch_perm (a : YamlMatch) (l : List YamlMatch) :
    (insertMatch a l).Perm (a :: l) := by
  induction l with
  | nil => simp [insertMatch]
  | cons b rest ih =>
      unfold insertMatch
      by_cases h : matchLE a b
      · rw [if_pos h]
      · rw [if_neg h]
        exact List.Perm.trans (List.Perm.cons b ih) (List.Perm.swap a b rest)

theorem mem_insertMatch {a x : YamlMatch} {l : List YamlMatch}
    (h : x ∈ insertMatch a l) : x = a ∨ x ∈ l := by
  have := (insertMatch_perm a l).mem_iff.mp h
  simpa using this

theorem sorted_insertMatch (a : YamlMatch) {l : List YamlMatch}
    (h : l.Pairwise (fun x y => matchLE x y = true)) :
    (insertMatch a l).Pairwise (fun x y => matchLE x y = true) := by
  induction l with
  | nil => simp [insertMatch]
  | cons b rest ih =>
      obtain ⟨hb, hrest⟩ := List.pairwise_cons.mp h
      unfold insertMatch
      by_cases hab : matchLE a b
      · rw [if_pos hab]
        refine List.pairwise_cons.mpr ⟨?_, h⟩
        intro x hx
        rcases List.mem_cons.mp hx with hx1 | hx1
        · subst hx1; exact hab
        · exact matchLE_trans hab (hb x hx1)
      · rw [if_neg hab]
        refine List.pairwise_cons.mpr ⟨?_, ih hrest⟩
        intro x hx
        rcases mem_insertMatch hx with hx1 | hx1
        · rw [hx1]
          exact matchLE_of_not a b (by simpa using hab)
        · exact hb x hx1

theorem sortMatches_perm (l : List YamlMatch) : (sortMatches l).Perm l := by
  induction l with
  | nil => simp [sortMatches]
  | cons x rest ih =>
      have h1 : sortMatches (x :: rest) = insertMatch x (sortMatches rest) := rfl
      rw [h1]
      exact List.Perm.trans (insertMatch_perm _ _) (List.Perm.cons _ ih)

theorem sortMatches_sorted (l : List YamlMatch) :
    (sortMatches l).Pairwise (fun x y => matchLE x y = true) := by
  induction l with
  | nil => simp [sortMatches]
  | cons x rest ih =>
      have h1 : sortMatches (x :: rest) = insertMatch x (sortMatches rest) := rfl
      rw [h1]
      exact sorted_insertMatch _ ih

theorem mem_sortMatches {l : List YamlMatch} {x : YamlMatch} :
    x ∈ sortMatches l ↔ x ∈ l :=
  (sortMatches_perm l).mem_iff

/-! ## Maximum match level -/

theorem maxMatchLevel_nil : maxMatchLevel [] = 0 := rfl

theorem maxMatchLevel_cons (r : YamlMatch) (l : List YamlMatch) :
    maxMatchLevel (r :: l) = max r.matchLevel (maxMatchLevel l) := rfl

theorem maxMatchLevel_append (l₁ l₂ : List YamlMatch) :
    maxMatchLevel (l₁ ++ l₂) = max (maxMatchLevel l₁) (maxMatchLevel l₂) := by
  induction l₁ with
  | nil => simp [maxMatchLevel_nil]
  | cons r rest ih =>
      rw [List.cons_append, maxMatchLevel_cons, ih, maxMatchLevel_cons]
      omega

theorem le_maxMatchLevel {l : List YamlMatch} {m : YamlMatch} (h : m ∈ l) :
    m.matchLevel ≤ maxMatchLevel l := by
  induction l with
  | nil => simp at h
  | cons r rest ih =>
      rw [maxMatchLevel_cons]
      rcases List.mem_cons.mp h with h1 | h1
      · subst h1; omega
      · have := ih h1
        omega

theorem maxMatchLevel_mem {l : List YamlMatch} (h : l ≠ []) :
    ∃ m ∈ l, maxMatchLevel l = m.matchLevel := by
  induction l with
  | nil => exact absurd rfl h
  | cons r rest ih =>
      by_cases hr : rest = []
      · subst hr
        exact ⟨r, by simp, by rw [maxMatchLevel_cons, maxMatchLevel_nil]; omega⟩
      · obtain ⟨m, hm, hmax⟩ := ih hr
        rw [maxMatchLevel_cons]
        by_cases hcmp : maxMatchLevel rest ≤ r.matchLevel
        · exact ⟨r, by simp, by omega⟩
        · exact ⟨m, List.mem_cons_of_mem _ hm, by omega⟩

theorem head_sortMatches_max {l : List YamlMatch} {m0 : YamlMatch} {rest : List YamlMatch}
    (h : sortMatches l = m0 :: rest) : m0.matchLevel = maxMatchLevel l := by
  have hperm := sortMatches_perm l
  have hm0 : m0 ∈ l := by
    rw [← hperm.mem_iff]
    rw [h]
    simp
  have hle : m0.matchLevel ≤ maxMatchLevel l := le_maxMatchLevel hm0
  have hne : l ≠ [] := by
    intro hl
    subst hl
    simp [sortMatches] at h
  obtain ⟨mx, hmx, hmax⟩ := maxMatchLevel_mem hne
  have hmxs : mx ∈ m0 :: rest := by
    rw [← h, mem_sortMatches]
    exact hmx
  have hpair := sortMatches_sorted l
  rw [h] at hpair
  rcases List.mem_cons.mp hmxs with h1 | h1
  · rw [hmax, h1]
  · have hle2 := level_le_of_matchLE ((List.pairwise_cons.mp hpair).1 mx h1)
    omega

/-! ## Filter-stage lemmas -/

theorem applyMatchFilter_sublist (cfg : HydralanceConfig) (rs : List YamlMatch) (n : Nat) :
    (applyMatchFilter cfg rs n).Sublist rs := by
  unfold applyMatchFilter
  by_cases h1 : cfg.matchFilter = "all"
  · rw [if_pos h1]
  · rw [if_neg h1]
    by_cases h2 : rs.isEmpty
    · rw [if_pos h2]
    · rw [if_neg h2]
      by_cases h3 : cfg.matchFilter = "perfect matches only"
      · rw [if_pos h3]
        exact List.filter_sublist _
      · rw [if_neg h3]
        by_cases h4 : cfg.matchFilter = "top matches only"
        · rw [if_pos h4]
          cases rs with
          | nil => exact List.nil_sublist _
          | cons r0 rest => exact List.filter_sublist _
        · rw [if_neg h4]

theorem applyMatchFilter_top {cfg : HydralanceConfig}
    (h : cfg.matchFilter = "top matches only") (r0 : YamlMatch) (rest : List YamlMatch)
    (n : Nat) :
    applyMatchFilter cfg (r0 :: rest) n =
      (r0 :: rest).filter (fun r => r.matchLevel == r0.matchLevel) := by
  unfold applyMatchFilter
  rw [if_neg (by rw [h]; decide), if_neg (by simp), if_neg (by rw [h]; decide), if_pos h]

theorem applyMatchFilter_perfect {cfg : HydralanceConfig}
    (h : cfg.matchFilter = "perfect matches only") (rs : List YamlMatch) (n : Nat)
    (hne : rs ≠ []) :
    applyMatchFilter cfg rs n = rs.filter (fun r => r.matchLevel == n) := by
  unfold applyMatchFilter
  rw [if_neg (by rw [h]; decide), if_neg (by simpa using hne), if_pos h]

theorem applyMatchFilter_all {cfg : HydralanceConfig} (h : cfg.matchFilter = "all")
    (rs : List YamlMatch) (n : Nat) : applyMatchFilter cfg rs n = rs := by
  unfold applyMatchFilter
  rw [if_pos h]

/-! ## Raw-match and pipeline membership -/

theorem mem_rawMatches {idx : ReversePathIndex} {q : List String} {m : YamlMatch}
    (h : m ∈ rawMatches idx q) :
    ∃ s, m.definition ∈ (mapGet idx.reverseIndex s).getD [] := by
  unfold rawMatches at h
  suffices haux : ∀ (ks : List Nat) (acc : List YamlMatch),
      (∀ r ∈ acc, ∃ s, r.definition ∈ (mapGet idx.reverseIndex s).getD []) →
      ∀ r ∈ ks.foldl
        (fun results k =>
          let level := q.length - k
          let searchPath := joinDots (q.drop k)
          let ms := (mapGet idx.reverseIndex searchPath).getD []
          results ++ ms.map (fun d => { definition := d, matchLevel := level }))
        acc,
        ∃ s, r.definition ∈ (mapGet idx.reverseIndex s).getD [] by
    exact haux _ [] (by simp) m h
  intro ks
  induction ks with
  | nil => intro acc hacc r hr; exact hacc r hr
  | cons k krest ih =>
      intro acc hacc r hr
      simp only [List.foldl_cons] at hr
      refine ih _ ?_ r hr
      intro r2 hr2
      rcases List.mem_append.mp hr2 with h1 | h1
      · exact hacc r2 h1
      · obtain ⟨d, hd, hrd⟩ := List.mem_map.mp h1
        exact ⟨joinDots (q.drop k), by rw [← hrd]; exact hd⟩

theorem rawMatches_congr {idx1 idx2 : ReversePathIndex} {q : List String}
    (h : ∀ s, mapGet idx1.reverseIndex s = mapGet idx2.reverseIndex s) :
    rawMatches idx1 q = rawMatches idx2 q := by
  unfold rawMatches
  suffices haux : ∀ (ks : List Nat) (acc : List YamlMatch),
      ks.foldl
        (fun results k =>
          let level := q.length - k
          let searchPath := joinDots (q.drop k)
          let ms := (mapGet idx1.reverseIndex searchPath).getD []
          results ++ ms.map (fun d => { definition := d, matchLevel := level }))
        acc =
      ks.foldl
        (fun results k =>
          let level := q.length - k
          let searchPath := joinDots (q.drop k)
          let ms := (mapGet idx2.reverseIndex searchPath).getD []
          results ++ ms.map (fun d => { definition := d, matchLevel := level }))
        acc by
    exact haux _ []
  intro ks
  induction ks with
  | nil => intro acc; rfl
  | cons k krest ih =>
      intro acc
      simp only [List.foldl_cons]
      rw [h (joinDots (q.drop k))]
      exact ih _

theorem findMatches_congr {idx1 idx2 : ReversePathIndex} {q : List String}
    (cfg : HydralanceConfig)
    (h : ∀ s, mapGet idx1.reverseIndex s = mapGet idx2.reverseIndex s) :
    findMatches idx1 cfg q = findMatches idx2 cfg q := by
  unfold findMatches
  rw [rawMatches_congr h]

/-! ## Deduplication lemmas -/

theorem mem_mapSet_nodup {α : Type} {k : String} {v : α} :
    ∀ (m : List (String × α)), NodupKeys m → ∀ e : String × α, e ∈ mapSet m k v →
      (e ∈ m ∧ e.1 ≠ k) ∨ e = (k, v) := by
  intro m
  induction m with
  | nil =>
      intro _ e h
      simp [mapSet] at h
      exact Or.inr h
  | cons e1 rest ih =>
      intro hn e h
      obtain ⟨k1, v1⟩ := e1
      have hn1 : k1 ∉ rest.map Prod.fst := (List.nodup_cons.mp hn).1
      have hn2 : NodupKeys rest := (List.nodup_cons.mp hn).2
      by_cases hk : k1 = k
      · rw [show mapSet ((k1, v1) :: rest) k v = (k, v) :: rest by
            rw [mapSet]; simp [hk]] at h
        rw [List.mem_cons] at h
        rcases h with h | h
        · exact Or.inr h
        · left
          refine ⟨List.mem_cons_of_mem _ h, ?_⟩
          intro hek
          exact hn1 (List.mem_map.mpr ⟨e, h, by rw [hek, ← hk]⟩)
      · simp only [mapSet, if_neg hk, List.mem_cons] at h
        rcases h with h | h
        · subst h
          exact Or.inl ⟨List.mem_cons_self _ _, hk⟩
        · rcases ih hn2 e h with ⟨h1, h2⟩ | h1
          · exact Or.inl ⟨List.mem_cons_of_mem _ h1, h2⟩
          · exact Or.inr h1

theorem countP_fst_le_one {α : Type} (u : String) :
    ∀ l : List (String × α), NodupKeys l → l.countP (fun e => e.1 == u) ≤ 1 := by
  intro l
  induction l with
  | nil => intro _; simp
  | cons e rest ih =>
      intro hn
      have hn1 : e.1 ∉ rest.map Prod.fst := (List.nodup_cons.mp hn).1
      have hn2 : NodupKeys rest := (List.nodup_cons.mp hn).2
      rw [List.countP_cons]
      by_cases hk : e.1 = u
      · have hz : rest.countP (fun p => p.1 == u) = 0 := by
          rw [List.countP_eq_zero]
          intro p hp hpk
          apply hn1
          rw [hk, ← (by simpa using hpk : p.1 = u)]
          exact List.mem_map.mpr ⟨p, hp, rfl⟩
        simp [hz, hk]
      · have hfalse : (e.1 == u) = false := by simpa using hk
        rw [hfalse]
        simpa using ih hn2

theorem maxMatchLevel_snoc (l : List YamlMatch) (r : YamlMatch) :
    maxMatchLevel (l ++ [r]) = max (maxMatchLevel l) r.matchLevel := by
  rw [maxMatchLevel_append, maxMatchLevel_cons, maxMatchLevel_nil]
  omega

theorem filter_snoc_uri (pre : List YamlMatch) (r : YamlMatch) (u : String) :
    (pre ++ [r]).filter (fun x => x.definition.fileUri == u) =
      pre.filter (fun x => x.definition.fileUri == u) ++
        (if r.definition.fileUri = u then [r] else []) := by
  rw [List.filter_append]
  congr 1
  by_cases hc : r.definition.fileUri = u
  · simp [hc]
  · simp [hc]

/-- The invariant of the deduplication fold of `findMatches`: after
processing a prefix `pre` of the raw results, the accumulator maps each
file uri seen so far to a raw match of that file carrying the maximum
match level seen so far for that file. -/
theorem dedup_fold_inv (tail : List YamlMatch) :
    ∀ (acc : List (String × YamlMatch)) (pre : List YamlMatch),
      NodupKeys acc →
      (∀ p ∈ acc, p.2.definition.fileUri = p.1 ∧ p.2 ∈ pre ∧
        p.2.matchLevel =
          maxMatchLevel (pre.filter (fun r => r.definition.fileUri == p.1))) →
      (∀ uri : String,
        pre.filter (fun r => r.definition.fileUri == uri) ≠ [] → mapGet acc uri ≠ none) →
      NodupKeys (tail.foldl dedupStep acc) ∧
      (∀ p ∈ tail.foldl dedupStep acc, p.2.definition.fileUri = p.1 ∧ p.2 ∈ pre ++ tail ∧
        p.2.matchLevel =
          maxMatchLevel ((pre ++ tail).filter (fun r => r.definition.fileUri == p.1))) ∧
      (∀ uri : String,
        (pre ++ tail).filter (fun r => r.definition.fileUri == uri) ≠ [] →
          mapGet (tail.foldl dedupStep acc) uri ≠ none) := by
  induction tail with
  | nil =>
      intro acc pre h1 h2 h3
      simp only [List.foldl_nil, List.append_nil]
      exact ⟨h1, h2, h3⟩
  | cons r rest ih =>
      intro acc pre h1 h2 h3
      simp only [List.foldl_cons]
      have hassoc : pre ++ r :: rest = (pre ++ [r]) ++ rest := by simp
      rw [hassoc]
      cases hget : mapGet acc r.definition.fileUri with
      | none =>
          have hstep : dedupStep acc r = acc ++ [(r.definition.fileUri, r)] := by
            simp [dedupStep, hget]
          have hfree : ∀ e ∈ acc, e.1 ≠ r.definition.fileUri :=
            mapGet_eq_none_iff.mp hget
          have hpreempty :
              pre.filter (fun x => x.definition.fileUri == r.definition.fileUri) = [] := by
            by_contra hco
            exact (h3 _ hco) hget
          rw [hstep]
          apply ih
          · exact nodupKeys_append_fresh _ h1 hget
          · intro p hp
            rcases List.mem_append.mp hp with hp1 | hp1
            · obtain ⟨hu, hmem, hmax⟩ := h2 p hp1
              refine ⟨hu, List.mem_append_left _ hmem, ?_⟩
              rw [filter_snoc_uri, if_neg (fun hco => hfree p hp1 hco.symm),
                List.append_nil]
              exact hmax
            · simp only [List.mem_singleton] at hp1
              subst hp1
              refine ⟨rfl, List.mem_append_right _ (by simp), ?_⟩
              show r.matchLevel = maxMatchLevel ((pre ++ [r]).filter
                (fun x => x.definition.fileUri == r.definition.fileUri))
              rw [filter_snoc_uri, if_pos rfl, hpreempty, List.nil_append,
                maxMatchLevel_cons, maxMatchLevel_nil]
              omega
          · intro u hu
            by_cases hru : r.definition.fileUri = u
            · subst hru
              have hgets : mapGet (acc ++ [(r.definition.fileUri, r)])
                  r.definition.fileUri = some r := mapGet_split_get hfree
              rw [hgets]
              simp
            · rw [filter_snoc_uri, if_neg hru, List.append_nil] at hu
              have hne := h3 u hu
              rw [mapGet_append]
              cases hacc : mapGet acc u with
              | none => exact absurd hacc hne
              | some v => simp
      | some existing =>
          have hex := h2 _ (mapGet_mem hget)
          have hexmax : existing.matchLevel =
              maxMatchLevel (pre.filter
                (fun x => x.definition.fileUri == r.definition.fileUri)) := hex.2.2
          by_cases hcmp : existing.matchLevel < r.matchLevel
          · have hstep : dedupStep acc r = mapSet acc r.definition.fileUri r := by
              simp [dedupStep, hget, hcmp]
            rw [hstep]
            apply ih
            · exact nodupKeys_mapSet _ h1
            · intro p hp
              rcases mem_mapSet_nodup _ h1 p hp with ⟨hp1, hpne⟩ | hp1
              · obtain ⟨hu, hmem, hmax⟩ := h2 p hp1
                refine ⟨hu, List.mem_append_left _ hmem, ?_⟩
                rw [filter_snoc_uri, if_neg (fun hco => hpne hco.symm), List.append_nil]
                exact hmax
              · subst hp1
                refine ⟨rfl, List.mem_append_right _ (by simp), ?_⟩
                show r.matchLevel = maxMatchLevel ((pre ++ [r]).filter
                  (fun x => x.definition.fileUri == r.definition.fileUri))
                rw [filter_snoc_uri, if_pos rfl, maxMatchLevel_snoc, ← hexmax]
                omega
            · intro u hu
              by_cases hru : r.definition.fileUri = u
              · subst hru
                rw [mapGet_mapSet_self]
                simp
              · rw [mapGet_mapSet_ne _ (fun hco => hru hco.symm)]
                rw [filter_snoc_uri, if_neg hru, List.append_nil] at hu
                exact h3 u hu
          · have hstep : dedupStep acc r = acc := by
              simp [dedupStep, hget, hcmp]
            rw [hstep]
            apply ih
            · exact h1
            · intro p hp
              obtain ⟨hu, hmem, hmax⟩ := h2 p hp
              refine ⟨hu, List.mem_append_left _ hmem, ?_⟩
              by_cases hpk : p.1 = r.definition.fileUri
              · have hsome : mapGet acc p.1 = some p.2 :=
                  mapGet_of_mem h1 (show (p.1, p.2) ∈ acc from hp)
                have hpex : p.2 = existing := by
                  rw [hpk] at hsome
                  exact Option.some_inj.mp (hsome.symm.trans hget)
                have hrle : r.matchLevel ≤ p.2.matchLevel := by
                  rw [hpex]
                  omega
                rw [filter_snoc_uri, if_pos hpk.symm, maxMatchLevel_snoc, ← hmax]
                omega
              · rw [filter_snoc_uri, if_neg (fun hco => hpk hco.symm), List.append_nil]
                exact hmax
            · intro u hu
              by_cases hru : r.definition.fileUri = u
              · rw [← hru, hget]
                simp
              · rw [filter_snoc_uri, if_neg hru, List.append_nil] at hu
                exact h3 u hu

/-- What the deduplication stage guarantees: every output match is one
of the raw results and carries the maximum level its file attains in
the raw results, and no file owns two output entries. -/
theorem dedupMatches_spec (results : List YamlMatch) :
    (∀ m ∈ dedupMatches results, m ∈ results ∧
      m.matchLevel = maxMatchLevel (results.filter
        (fun r => r.definition.fileUri == m.definition.fileUri))) ∧
    ∀ uri : String,
      (dedupMatches results).countP (fun m => m.definition.fileUri == uri) ≤ 1 := by
  obtain ⟨hnod, hpairs, -⟩ :=
    dedup_fold_inv results [] [] nodupKeys_nil (by simp) (by simp)
  simp only [List.nil_append] at hpairs
  constructor
  · intro m hm
    obtain ⟨p, hp, hpm⟩ := List.mem_map.mp hm
    obtain ⟨hu, hmem, hmax⟩ := hpairs p hp
    refine ⟨by rw [← hpm]; exact hmem, ?_⟩
    rw [← hpm, ← hu] at *
    exact hmax
  · intro uri
    unfold dedupMatches
    rw [List.countP_map]
    rw [List.countP_congr (fun p hp => ?_)]
    · exact countP_fst_le_one uri _ hnod
    · obtain ⟨hu, -, -⟩ := hpairs p hp
      constructor
      · intro hx
        simp only [Function.comp] at hx
        rw [← hu]
        exact hx
      · intro hx
        simp only [Function.comp]
        rw [hu]
        exact hx

/-! ## Parser unfolding lemmas -/

theorem parseLines_nil (uri : String) (P : List String) (lineNum : Nat)
    (st : List StackFrame) (nid : Nat) : parseLines uri P lineNum st nid [] = [] := rfl

theorem parseLines_skip {line : String}
    (h : (jsTrim line = "" || strStartsWith (jsTrim line) "#") = true)
    (uri : String) (P : List String) (lineNum : Nat) (st : List StackFrame) (nid : Nat)
    (rest : List String) :
    parseLines uri P lineNum st nid (line :: rest) =
      parseLines uri P (lineNum + 1) st nid rest := by
  simp only [parseLines]
  rw [if_pos h]

theorem parseLines_nokey {line : String}
    (h1 : (jsTrim line = "" || strStartsWith (jsTrim line) "#") = false)
    (h2 : matchKeyLine line = none)
    (uri : String) (P : List String) (lineNum : Nat) (st : List StackFrame) (nid : Nat)
    (rest : List String) :
    parseLines uri P lineNum st nid (line :: rest) =
      parseLines uri P (lineNum + 1) st nid rest := by
  simp only [parseLines, h2]
  rw [if_neg (by simp [h1])]

theorem stackStep_skip {line : String}
    (h : (jsTrim line = "" || strStartsWith (jsTrim line) "#") = true)
    (st : List StackFrame) : stackStep st line = st := by
  simp only [stackStep]
  rw [if_pos h]

theorem stackStep_nokey {line : String}
    (h1 : (jsTrim line = "" || strStartsWith (jsTrim line) "#") = false)
    (h2 : matchKeyLine line = none) (st : List StackFrame) : stackStep st line = st := by
  simp only [stackStep, h2]
  rw [if_neg (by simp [h1])]

theorem stackStep_key {line : String} {km : KeyMatch}
    (h1 : (jsTrim line = "" || strStartsWith (jsTrim line) "#") = false)
    (h2 : matchKeyLine line = some km) (st : List StackFrame) :
    stackStep st line =
      if jsTrim km.value = "" || jsTrim km.value = "\x7b" || jsTrim km.value = "[" then
        { key := jsTrim km.keyRaw, indent := getIndentLevel line } ::
          st.dropWhile (fun f => getIndentLevel line ≤ f.indent)
      else st.dropWhile (fun f => getIndentLevel line ≤ f.indent) := by
  simp only [stackStep, h2]
  rw [if_neg (by simp [h1])]

theorem parseLines_key {line : String} {km : KeyMatch}
    (h1 : (jsTrim line = "" || strStartsWith (jsTrim line) "#") = false)
    (h2 : matchKeyLine line = some km)
    (uri : String) (P : List String) (lineNum : Nat) (st : List StackFrame) (nid : Nat)
    (rest : List String) :
    parseLines uri P lineNum st nid (line :: rest) =
      { logicalPath := P ++
          ((st.dropWhile (fun f => getIndentLevel line ≤ f.indent)).reverse.map
            (fun f => f.key)) ++ [jsTrim km.keyRaw]
        fileUri := uri
        position := { line := lineNum, character := km.ws }
        range :=
          { startLine := lineNum, startChar := km.ws
            endLine := lineNum, endChar := km.ws + (jsTrim km.keyRaw).length }
        defId := nid } ::
      parseLines uri P (lineNum + 1) (stackStep st line) (nid + 1) rest := by
  rw [stackStep_key h1 h2]
  simp only [parseLines, h2]
  rw [if_neg (by simp [h1])]

theorem parseLines_line_lb (uri : String) (P : List String) :
    ∀ (ls : List String) (i₀ : Nat) (st : List StackFrame) (nid : Nat)
      (d : YamlKeyDefinition), d ∈ parseLines uri P i₀ st nid ls → i₀ ≤ d.position.line := by
  intro ls
  induction ls with
  | nil =>
      intro i₀ st nid d hd
      rw [parseLines_nil] at hd
      simp at hd
  | cons l₀ rest ih =>
      intro i₀ st nid d hd
      by_cases hskip0 : (jsTrim l₀ = "" || strStartsWith (jsTrim l₀) "#") = true
      · rw [parseLines_skip hskip0] at hd
        exact le_trans (by omega) (ih (i₀ + 1) st nid d hd)
      · cases hkm0 : matchKeyLine l₀ with
        | none =>
            rw [parseLines_nokey (by simpa using hskip0) hkm0] at hd
            exact le_trans (by omega) (ih (i₀ + 1) st nid d hd)
        | some km0 =>
            rw [parseLines_key (by simpa using hskip0) hkm0] at hd
            rcases List.mem_cons.mp hd with h1 | h1
            · rw [h1]
            · exact le_trans (by omega) (ih (i₀ + 1) (stackStep st l₀) (nid + 1) d h1)

/-- The emitted definition of a key line, characterised against the
open ancestor chain recomputed from scratch over the preceding lines. -/
theorem parseLines_key_filter (uri : String) (P : List String) :
    ∀ (ls : List String) (j : Nat) (st : List StackFrame) (nid i₀ : Nat) (line : String)
      (km : KeyMatch),
      ls[j]? = some line →
      (jsTrim line = "" || strStartsWith (jsTrim line) "#") = false →
      matchKeyLine line = some km →
      ((parseLines uri P i₀ st nid ls).filter
          (fun d => d.position.line == i₀ + j)).map (fun d => d.logicalPath) =
        [P ++ ((((ls.take j).foldl stackStep st).dropWhile
            (fun f => getIndentLevel line ≤ f.indent)).reverse.map (fun f => f.key)) ++
          [jsTrim km.keyRaw]] := by
  intro ls
  induction ls with
  | nil =>
      intro j st nid i₀ line km hj
      simp at hj
  | cons l₀ rest ih =>
      intro j st nid i₀ line km hj hskip hkm
      cases j with
      | zero =>
          have hline : l₀ = line := by simpa using hj
          subst hline
          rw [parseLines_key hskip hkm]
          rw [List.filter_cons_of_pos (by simp)]
          have htail : (parseLines uri P (i₀ + 1) (stackStep st l₀) (nid + 1) rest).filter
              (fun d => d.position.line == i₀ + 0) = [] := by
            rw [List.filter_eq_nil_iff]
            intro d hd
            have hlb := parseLines_line_lb uri P rest (i₀ + 1) (stackStep st l₀) (nid + 1) d hd
            simp only [beq_iff_eq]
            omega
          rw [htail, List.take_zero, List.foldl_nil]
          rfl
      | succ j' =>
          have hj' : rest[j']? = some line := by simpa using hj
          have harith : i₀ + (j' + 1) = (i₀ + 1) + j' := by omega
          by_cases hskip0 : (jsTrim l₀ = "" || strStartsWith (jsTrim l₀) "#") = true
          · rw [parseLines_skip hskip0, List.take_succ_cons, List.foldl_cons,
              stackStep_skip hskip0]
            simp only [harith]
            exact ih j' st nid (i₀ + 1) line km hj' hskip hkm
          · cases hkm0 : matchKeyLine l₀ with
            | none =>
                rw [parseLines_nokey (by simpa using hskip0) hkm0, List.take_succ_cons,
                  List.foldl_cons, stackStep_nokey (by simpa using hskip0) hkm0]
                simp only [harith]
                exact ih j' st nid (i₀ + 1) line km hj' hskip hkm
            | some km0 =>
                rw [parseLines_key (by simpa using hskip0) hkm0]
                rw [List.filter_cons_of_neg (by simp only [beq_iff_eq]; omega)]
                rw [List.take_succ_cons, List.foldl_cons]
                simp only [harith]
                exact ih j' (stackStep st l₀) (nid + 1) (i₀ + 1) line km hj' hskip hkm

/-! ## Glue lemmas for the claims -/

theorem maxMatchLevel_perm {l1 l2 : List YamlMatch} (h : l1.Perm l2) :
    maxMatchLevel l1 = maxMatchLevel l2 := by
  by_cases hn : l1 = []
  · subst hn
    rw [← h.nil_eq]
  · have hn2 : l2 ≠ [] := by
      intro hc
      subst hc
      exact hn h.symm.nil_eq.symm
    obtain ⟨m1, hm1, hmax1⟩ := maxMatchLevel_mem hn
    obtain ⟨m2, hm2, hmax2⟩ := maxMatchLevel_mem hn2
    have h1 : maxMatchLevel l1 ≤ maxMatchLevel l2 := by
      rw [hmax1]
      exact le_maxMatchLevel (h.mem_iff.mp hm1)
    have h2 : maxMatchLevel l2 ≤ maxMatchLevel l1 := by
      rw [hmax2]
      exact le_maxMatchLevel (h.symm.mem_iff.mp hm2)
    omega

theorem mem_isolationFilter {cfg : HydralanceConfig} {wsOf : String → Option String}
    {src : String} {ms : List YamlMatch} {m : YamlMatch}
    (h : m ∈ isolationFilter cfg wsOf src ms) : m ∈ ms := by
  unfold isolationFilter at h
  by_cases hb : cfg.isolateWorkspaceFolders = true
  · rw [if_pos hb] at h
    cases hsrc : wsOf src with
    | some w =>
        rw [hsrc] at h
        exact (List.mem_filter.mp h).1
    | none =>
        rw [hsrc] at h
        exact h
  · rw [if_neg hb] at h
    exact h

theorem findMatches_top_level {idx : ReversePathIndex} {cfg : HydralanceConfig}
    {q : List String} {m : YamlMatch}
    (hmode : cfg.matchFilter = "top matches only")
    (hm : m ∈ findMatches idx cfg q) :
    m.matchLevel = maxMatchLevel (sortMatches (dedupMatches (rawMatches idx q))) := by
  unfold findMatches at hm
  cases hsort : sortMatches (dedupMatches (rawMatches idx q)) with
  | nil =>
      rw [hsort] at hm
      unfold applyMatchFilter at hm
      rw [if_neg (by rw [hmode]; decide), if_pos (by decide)] at hm
      simp at hm
  | cons r0 rest2 =>
      rw [hsort, applyMatchFilter_top hmode] at hm
      have hlev : m.matchLevel = r0.matchLevel := by
        have := (List.mem_filter.mp hm).2
        simpa using this
      have hmax : r0.matchLevel = maxMatchLevel (dedupMatches (rawMatches idx q)) :=
        head_sortMatches_max hsort
      rw [hlev, hmax, ← hsort]
      exact (maxMatchLevel_perm (sortMatches_perm _)).symm

theorem removeFile_of_get_none {idx : ReversePathIndex} {uri : String}
    (h : mapGet idx.fileIndex uri = none) : removeFile idx uri = idx := by
  obtain ⟨ri, fi⟩ := idx
  simp only at h
  simp [removeFile, h, mapDelete_of_get_none h]

theorem nodupKeys_addAll_reverse (ds : List YamlKeyDefinition) :
    ∀ idx : ReversePathIndex, NodupKeys idx.reverseIndex →
      NodupKeys (addAll idx ds).reverseIndex := by
  induction ds with
  | nil => intro idx h; exact h
  | cons d rest ih =>
      intro idx h
      have h1 : addAll idx (d :: rest) = addAll (addDefinition idx d) rest := rfl
      rw [h1]
      apply ih
      rw [addDefinition_reverseIndex]
      exact nodupKeys_foldl_addToBucket _ _ _ h

/-! ## The claims -/

/-- Claim C2, counterexample: the claim states that parsing
`a/b/name.yaml` containing `value: 1` yields a definition with logical
path `[a, b, name, value]` and that a query for `[b, name, value]`
matches at level 3.  In the code, `getFilePathComponents` drops the
final path component (the file name), so the emitted path is
`[a, b, value]`, and the query `[b, name, value]` only matches at
level 1 (the trailing `[value]` suffix). -/
theorem counterexample_C2 :
    (parseFile 0 exDoc).map (fun d => d.logicalPath) = [["a", "b", "value"]] ∧
    (["a", "b", "value"] : List String) ≠ ["a", "b", "name", "value"] ∧
    (findMatches exIdx defaultConfig ["b", "name", "value"]).map
      (fun m => m.matchLevel) = [1] := by
  refine ⟨by decide, by decide, by decide⟩

/-- Claim C2 as amended: for the document `a/b/name.yaml` containing
the single key line `value: 1`, parsing emits one `KeyDefinition` with
logical path `[a, b, value]` (the file name is excluded); a query for
`[b, name, value]` returns a match for that definition with match
level 1, and a query for `[value]` returns a match for the same
definition with match level 1. -/
theorem claim_C2 :
    (parseFile 0 exDoc).map (fun d => d.logicalPath) = [["a", "b", "value"]] ∧
    (findMatches exIdx defaultConfig ["b", "name", "value"]).map
      (fun m => m.matchLevel) = [1] ∧
    (findMatches exIdx defaultConfig ["b", "name", "value"]).map
      (fun m => m.definition) = parseFile 0 exDoc ∧
    (findMatches exIdx defaultConfig ["value"]).map (fun m => m.matchLevel) = [1] ∧
    (findMatches exIdx defaultConfig ["value"]).map
      (fun m => m.definition) = parseFile 0 exDoc := by
  refine ⟨by decide, by decide, by decide, by decide, by decide⟩

/-- Claim C6: on a deduplicated, sorted result set whose match levels
are `[3, 3, 2, 1]` and a query of length 3, `top matches only` returns
exactly the level-3 entries, `perfect matches only` returns exactly the
entries whose level equals the query length 3, and `all` returns all
four entries unchanged. -/
theorem claim_C6 (ms : List YamlMatch)
    (h : ms.map (fun m => m.matchLevel) = [3, 3, 2, 1]) :
    applyMatchFilter { matchFilter := "top matches only", isolateWorkspaceFolders := true }
        ms 3 = ms.filter (fun r => r.matchLevel == 3) ∧
    applyMatchFilter { matchFilter := "perfect matches only", isolateWorkspaceFolders := true }
        ms 3 = ms.filter (fun r => r.matchLevel == 3) ∧
    applyMatchFilter { matchFilter := "all", isolateWorkspaceFolders := true }
        ms 3 = ms := by
  cases ms with
  | nil => simp at h
  | cons m0 tl =>
      have hm0 : m0.matchLevel = 3 := by
        have := congrArg (fun l => l.head?) h
        simpa using this
      refine ⟨?_, ?_, ?_⟩
      · rw [applyMatchFilter_top rfl]
        simp only [hm0]
      · rw [applyMatchFilter_perfect rfl _ _ (by simp)]
      · exact applyMatchFilter_all rfl _ _

/-- Claim C6, witness at a concrete four-element result set. -/
theorem claim_C6_witness :
    exResults3321.map (fun m => m.matchLevel) = [3, 3, 2, 1] ∧
    applyMatchFilter { matchFilter := "all", isolateWorkspaceFolders := true }
      exResults3321 3 = exResults3321 :=
  ⟨by decide, (claim_C6 exResults3321 (by decide)).2.2⟩

/-- Claim C8: removing a document that has no file-index entry leaves
the whole index state unchanged and raises no error, and removing the
same document twice is the same as removing it once.  The `NodupKeys`
hypothesis states an intrinsic property of the JavaScript `Map` the
association list models. -/
theorem claim_C8 (idx : ReversePathIndex) (uri : String)
    (hnk : NodupKeys idx.fileIndex) :
    (mapGet idx.fileIndex uri = none → removeFile idx uri = idx) ∧
    removeFile (removeFile idx uri) uri = removeFile idx uri := by
  constructor
  · intro h
    exact removeFile_of_get_none h
  · apply removeFile_of_get_none
    rw [removeFile_fileIndex]
    exact mapGet_mapDelete_self hnk

/-- Claim C8, witness: removing an unknown document from a concrete
one-document index is a no-op. -/
theorem claim_C8_witness :
    mapGet exIdx7.fileIndex "nope" = none ∧ removeFile exIdx7 "nope" = exIdx7 :=
  ⟨by decide, (claim_C8 exIdx7 "nope" (by decide)).1 (by decide)⟩

/-- Claim C9: a `matchFilter` configuration value that is none of
`all`, `top matches only` or `perfect matches only` falls through to
the final branch of `applyMatchFilter`, which returns the full
deduplicated, sorted match list unchanged. -/
theorem claim_C9 (cfg : HydralanceConfig) (results : List YamlMatch) (n : Nat)
    (h1 : cfg.matchFilter ≠ "all")
    (h2 : cfg.matchFilter ≠ "top matches only")
    (h3 : cfg.matchFilter ≠ "perfect matches only") :
    applyMatchFilter cfg results n = results := by
  unfold applyMatchFilter
  rw [if_neg h1]
  by_cases he : results.isEmpty
  · rw [if_pos he]
  · rw [if_neg he, if_neg h3]
    by_cases ht : cfg.matchFilter = "top matches only"
    · exact absurd ht h2
    · rw [if_neg ht]

/-- Claim C9, witness with the unrecognised filter value `bogus`. -/
theorem claim_C9_witness :
    applyMatchFilter { matchFilter := "bogus", isolateWorkspaceFolders := true }
      exResults3321 3 = exResults3321 :=
  claim_C9 _ exResults3321 3 (by decide) (by decide) (by decide)

/-- Claim C1, counterexample: the claim states that the
workspace-isolation filter runs before the `filterMode` filter, so that
under the default `top matches only` mode the result keeps the matches
whose level is maximal among the isolation survivors.  In the code the
`filterMode` filter runs inside `findMatches`, before isolation: with a
level-2 match in workspace `w2` and a level-1 match in workspace `w1`,
a query from `w1` returns nothing, while the pipeline in the claimed
order would return the `w1` level-1 match. -/
theorem counterexample_C1 :
    defaultConfig.matchFilter = "top matches only" ∧
    defaultConfig.isolateWorkspaceFolders = true ∧
    resolveInterpolationMatches exIdx2 defaultConfig exWsOf "y.x" "w1/src.yaml" = none ∧
    resolveInterpolationIsolationFirst exIdx2 defaultConfig exWsOf "y.x" "w1/src.yaml" =
      some [{ definition := exDefX, matchLevel := 1 }] := by
  refine ⟨by decide, by decide, by decide, by decide⟩

/-- Claim C1 as amended: the `filterMode` filter is applied inside the
index query, before the workspace-isolation filter.  Consequently,
under the default `top matches only` mode every match returned by
`resolveInterpolation` has `matchLevel` equal to the maximum match
level of the deduplicated, sorted match list over all workspace roots
(not the maximum among isolation survivors), belongs to the
`filterMode`-filtered query result, and, when isolation applies,
belongs to the source document's workspace root; the result can be
empty even when the source root has matches at lower levels. -/
theorem claim_C1 (idx : ReversePathIndex) (cfg : HydralanceConfig)
    (wsOf : String → Option String) (ip src : String) (ms : List YamlMatch)
    (hmode : cfg.matchFilter = "top matches only")
    (hres : resolveInterpolationMatches idx cfg wsOf ip src = some ms) :
    ∀ m ∈ ms,
      m.matchLevel = maxMatchLevel (sortMatches (dedupMatches
        (rawMatches idx (parseInterpolationComponents ip)))) ∧
      m ∈ findMatches idx cfg (parseInterpolationComponents ip) ∧
      (cfg.isolateWorkspaceFolders = true →
        ∀ w, wsOf src = some w → wsOf m.definition.fileUri = some w) := by
  intro m hm
  simp only [resolveInterpolationMatches] at hres
  by_cases hempty : (parseInterpolationComponents ip).isEmpty
  · rw [if_pos hempty] at hres
    simp at hres
  · rw [if_neg hempty] at hres
    by_cases hfm : (findMatches idx cfg (parseInterpolationComponents ip)).isEmpty
    · rw [if_pos hfm] at hres
      simp at hres
    · rw [if_neg hfm] at hres
      by_cases hfil : (isolationFilter cfg wsOf src
          (findMatches idx cfg (parseInterpolationComponents ip))).isEmpty
      · rw [if_pos hfil] at hres
        simp at hres
      · rw [if_neg hfil] at hres
        have hms : ms = isolationFilter cfg wsOf src
            (findMatches idx cfg (parseInterpolationComponents ip)) := by
          have := Option.some_inj.mp hres
          exact this.symm
        subst hms
        have hmf : m ∈ findMatches idx cfg (parseInterpolationComponents ip) :=
          mem_isolationFilter hm
        refine ⟨findMatches_top_level hmode hmf, hmf, ?_⟩
        intro hiso w hw
        unfold isolationFilter at hm
        rw [if_pos hiso, hw] at hm
        have := (List.mem_filter.mp hm).2
        simpa using this

/-- Claim C1, witness: a single-root query where the amended theorem
applies and returns the `w1` match at the all-roots maximum level 1. -/
theorem claim_C1_witness :
    defaultConfig.matchFilter = "top matches only" ∧
    resolveInterpolationMatches exIdx2 defaultConfig exWsOf "x" "w1/src.yaml" =
      some [{ definition := exDefX, matchLevel := 1 }] ∧
    ({ definition := exDefX, matchLevel := 1 } : YamlMatch).matchLevel =
      maxMatchLevel (sortMatches (dedupMatches
        (rawMatches exIdx2 (parseInterpolationComponents "x")))) :=
  ⟨by decide, by decide,
    (claim_C1 exIdx2 defaultConfig exWsOf "x" "w1/src.yaml"
      [{ definition := exDefX, matchLevel := 1 }] (by decide) (by decide)
      { definition := exDefX, matchLevel := 1 } (by decide)).1⟩

/-- Claim C4: for any raw match list, in whatever order the index
emits it, the pipeline of deduplication, sort and match filter returns
at most one match per owning document, and any returned match for a
document is one of the raw matches and carries the highest match level
among that document's raw matches. -/
theorem claim_C4 (results : List YamlMatch) (cfg : HydralanceConfig) (n : Nat)
    (uri : String) :
    (applyMatchFilter cfg (sortMatches (dedupMatches results)) n).countP
        (fun m => m.definition.fileUri == uri) ≤ 1 ∧
    ∀ m ∈ applyMatchFilter cfg (sortMatches (dedupMatches results)) n,
      m.definition.fileUri = uri →
        m ∈ results ∧
        m.matchLevel = maxMatchLevel (results.filter
          (fun r => r.definition.fileUri == uri)) := by
  constructor
  · have h1 : (dedupMatches results).countP (fun m => m.definition.fileUri == uri) ≤ 1 :=
      (dedupMatches_spec results).2 uri
    have h2 : (sortMatches (dedupMatches results)).countP
        (fun m => m.definition.fileUri == uri) ≤ 1 := by
      rw [List.Perm.countP_eq _ (sortMatches_perm _)]
      exact h1
    exact le_trans (List.Sublist.countP_le _ (applyMatchFilter_sublist cfg _ n)) h2
  · intro m hm hmuri
    subst hmuri
    have hm1 : m ∈ sortMatches (dedupMatches results) :=
      List.Sublist.mem hm (applyMatchFilter_sublist cfg _ n)
    have hm2 : m ∈ dedupMatches results := mem_sortMatches.mp hm1
    obtain ⟨hmem, hmax⟩ := (dedupMatches_spec results).1 m hm2
    exact ⟨hmem, hmax⟩

/-- Claim C4, witness: a document contributing matches at levels 1 and
2 in emission order low-before-high still yields its level-2 match. -/
theorem claim_C4_witness :
    (applyMatchFilter defaultConfig (sortMatches (dedupMatches
        [ { definition := exDefYX, matchLevel := 1 },
          { definition := exDefYX, matchLevel := 2 },
          { definition := exDefX, matchLevel := 1 } ])) 2).countP
      (fun m => m.definition.fileUri == "w2/b.yaml") ≤ 1 ∧
    ({ definition := exDefYX, matchLevel := 2 } : YamlMatch) ∈
        ([ { definition := exDefYX, matchLevel := 1 },
           { definition := exDefYX, matchLevel := 2 },
           { definition := exDefX, matchLevel := 1 } ] : List YamlMatch) ∧
    ({ definition := exDefYX, matchLevel := 2 } : YamlMatch).matchLevel =
      maxMatchLevel (([ { definition := exDefYX, matchLevel := 1 },
          { definition := exDefYX, matchLevel := 2 },
          { definition := exDefX, matchLevel := 1 } ] : List YamlMatch).filter
        (fun r => r.definition.fileUri == "w2/b.yaml")) :=
  ⟨(claim_C4 _ defaultConfig 2 "w2/b.yaml").1,
    (claim_C4 _ defaultConfig 2 "w2/b.yaml").2
      { definition := exDefYX, matchLevel := 2 } (by decide) (by decide)⟩

/-- Claim C5: for every document and every key line, the emitted
definition's logical path is the file-path components followed by the
keys of the frames that survive popping every frame whose indent is
greater than or equal to the line's indent from the open ancestor
chain, followed by the line's own key; exactly one definition is
emitted for that line. -/
theorem claim_C5 (doc : TextDocument) (startId i : Nat) (line : String) (km : KeyMatch)
    (h1 : (jsSplit '\n' doc.text)[i]? = some line)
    (h2 : (jsTrim line = "" || strStartsWith (jsTrim line) "#") = false)
    (h3 : matchKeyLine line = some km) :
    ((parseFile startId doc).filter (fun d => d.position.line == i)).map
        (fun d => d.logicalPath) =
      [getFilePathComponents doc ++
        (((chainAt (jsSplit '\n' doc.text) i).dropWhile
          (fun f => getIndentLevel line ≤ f.indent)).reverse.map (fun f => f.key)) ++
        [jsTrim km.keyRaw]] := by
  have h := parseLines_key_filter doc.uri (getFilePathComponents doc)
    (jsSplit '\n' doc.text) i [] startId 0 line km h1 h2 h3
  unfold parseFile chainAt
  simpa using h

/-- Claim C5, witness: in the nested document the line `    d: 2` at
index 3 emits exactly one definition with path `[conf, a, c, d]`. -/
theorem claim_C5_witness :
    ((parseFile 0 exDocNest).filter (fun d => d.position.line == 3)).map
        (fun d => d.logicalPath) =
      [getFilePathComponents exDocNest ++
        (((chainAt (jsSplit '\n' exDocNest.text) 3).dropWhile
          (fun f => getIndentLevel "    d: 2" ≤ f.indent)).reverse.map (fun f => f.key)) ++
        [jsTrim (KeyMatch.mk 4 "d" "2").keyRaw]] :=
  claim_C5 exDocNest 0 3 "    d: 2" (KeyMatch.mk 4 "d" "2")
    (by decide) (by decide) (by decide)

/-- Claim C3: a freshly created definition with logical path of length
N is registered by `addDefinition` under exactly the N distinct suffix
keys of its path, one registration each and none elsewhere; after
`removeFile` of its owning document no registration of it remains, and
no empty bucket is left behind.  The hypotheses state properties of
every reachable state: a fresh object's identity occurs nowhere, a
JavaScript `Map` has no duplicate keys, and the index never stores an
empty bucket. -/
theorem claim_C3 (idx : ReversePathIndex) (d : YamlKeyDefinition)
    (hfresh : IdFresh idx.reverseIndex d.defId)
    (hnk : NodupKeys idx.reverseIndex)
    (hneb : NoEmptyBuckets idx.reverseIndex) :
    (suffixKeys d.logicalPath).length = d.logicalPath.length ∧
    (suffixKeys d.logicalPath).Nodup ∧
    (∀ s, bucketCount (addDefinition idx d).reverseIndex s d.defId =
      if s ∈ suffixKeys d.logicalPath then 1 else 0) ∧
    (∀ s, bucketCount
      (removeFile (addDefinition idx d) d.fileUri).reverseIndex s d.defId = 0) ∧
    NoEmptyBuckets (removeFile (addDefinition idx d) d.fileUri).reverseIndex := by
  have hfzero : ∀ s, ((mapGet idx.reverseIndex s).getD []).countP
      (fun x => x.defId == d.defId) = 0 := by
    intro s
    rw [List.countP_eq_zero]
    intro x hx
    cases hg : mapGet idx.reverseIndex s with
    | none =>
        rw [hg] at hx
        simp at hx
    | some l =>
        rw [hg] at hx
        simp only [Option.getD_some] at hx
        have := hfresh _ (mapGet_mem hg) x hx
        simpa using this
  refine ⟨suffixKeys_length _, suffixKeys_nodup _, ?_, ?_, ?_⟩
  · intro s
    unfold bucketCount
    rw [get_addDefinition_reverse]
    by_cases hs : s ∈ suffixKeys d.logicalPath
    · rw [if_pos hs, if_pos hs]
      unfold addAt
      simp only [Option.getD_some]
      rw [List.countP_append, hfzero s]
      simp
    · rw [if_neg hs, if_neg hs]
      exact hfzero s
  · intro s
    unfold bucketCount
    have hNadd : NodupKeys (addDefinition idx d).reverseIndex := by
      rw [addDefinition_reverseIndex]
      exact nodupKeys_foldl_addToBucket _ _ _ hnk
    have hdefs : (mapGet (addDefinition idx d).fileIndex d.fileUri).getD [] =
        (mapGet idx.fileIndex d.fileUri).getD [] ++ [d] := by
      rw [get_addDefinition_fileIndex_self]
      rfl
    rw [removeFile_reverseIndex, hdefs, get_foldl_removeDefStep _ _ _ hNadd]
    by_cases hs : s ∈ suffixKeys d.logicalPath
    · apply countP_foldl_remAt_zero
      exact ⟨d, List.mem_filter.mpr
        ⟨List.mem_append_right _ (by simp), by simpa using hs⟩, rfl⟩
    · have hbase : ((mapGet (addDefinition idx d).reverseIndex s).getD []).countP
          (fun x => x.defId == d.defId) = 0 := by
        rw [get_addDefinition_reverse, if_neg hs]
        exact hfzero s
      exact Nat.le_zero.mp
        (le_trans (countP_getD_foldl_remAt_le _ _ _) (le_of_eq hbase))
  · rw [removeFile_reverseIndex]
    apply noEmptyBuckets_foldl_removeDefStep
    rw [addDefinition_reverseIndex]
    exact noEmptyBuckets_foldl_addToBucket _ _ _ hneb

/-- Claim C3, witness at the empty index with a length-2 path. -/
theorem claim_C3_witness :
    IdFresh emptyIndex.reverseIndex exDefYX.defId ∧
    bucketCount (removeFile (addDefinition emptyIndex exDefYX) exDefYX.fileUri).reverseIndex
      "y.x" exDefYX.defId = 0 :=
  ⟨by decide,
    (claim_C3 emptyIndex exDefYX (by decide) (by decide) (by decide)).2.2.2.1 "y.x"⟩

/-- Claim C7, counterexample: the claim quantifies over every index
state, but when the document is already indexed, `add` followed by
`removeDocument` also removes the pre-existing definitions: after
adding a fresh record for the already-indexed `f.yaml` and removing
`f.yaml`, a query for `[x]` that used to match now returns nothing. -/
theorem counterexample_C7 :
    findMatches exIdx7 defaultConfig ["x"] ≠ [] ∧
    findMatches (removeFile (addAll exIdx7 [exDef1]) "f.yaml") defaultConfig ["x"] = [] := by
  refine ⟨by decide, by decide⟩

/-- Claim C7 as amended: if the document is not currently indexed and
its definition records are fresh, then `add` of all its definitions
followed immediately by `removeDocument` leaves the index observably
identical: every query under every configuration returns the same
matches as before, and the file index is restored exactly. -/
theorem claim_C7 (idx : ReversePathIndex) (F : String) (ds : List YamlKeyDefinition)
    (h1 : mapGet idx.fileIndex F = none)
    (h2 : ∀ d ∈ ds, d.fileUri = F)
    (h3 : ∀ d ∈ ds, IdFresh idx.reverseIndex d.defId)
    (h4 : NoEmptyBuckets idx.reverseIndex)
    (h5 : NodupKeys idx.reverseIndex) :
    (∀ cfg q, findMatches (removeFile (addAll idx ds) F) cfg q = findMatches idx cfg q) ∧
    (removeFile (addAll idx ds) F).fileIndex = idx.fileIndex := by
  have hfi : (removeFile (addAll idx ds) F).fileIndex = idx.fileIndex := by
    rw [removeFile_fileIndex]
    exact delete_addAll_fileIndex h1 h2
  refine ⟨?_, hfi⟩
  intro cfg q
  apply findMatches_congr
  intro s
  by_cases hne : ds = []
  · subst hne
    rw [removeFile_reverseIndex]
    have haddnil : addAll idx ([] : List YamlKeyDefinition) = idx := rfl
    rw [haddnil, h1]
    rfl
  · have hdefs : (mapGet (addAll idx ds).fileIndex F).getD [] = ds := by
      rw [get_addAll_fileIndex_self h1 h2 hne]
      rfl
    have hNadd : NodupKeys (addAll idx ds).reverseIndex := nodupKeys_addAll_reverse _ _ h5
    rw [removeFile_reverseIndex, hdefs, get_foldl_removeDefStep _ _ _ hNadd,
      get_addAll_reverse]
    apply roundTrip_point
    · intro x hx e he
      have he2 : e ∈ ds := (List.mem_filter.mp he).1
      cases hg : mapGet idx.reverseIndex s with
      | none =>
          rw [hg] at hx
          simp at hx
      | some l =>
          rw [hg] at hx
          simp only [Option.getD_some] at hx
          exact h3 e he2 _ (mapGet_mem hg) x hx
    · intro hc
      exact h4 _ (mapGet_mem hc) rfl

/-- Claim C7, witness: adding and removing a fresh `g.yaml` definition
on top of a one-document index restores the query results. -/
theorem claim_C7_witness :
    mapGet exIdx7.fileIndex "g.yaml" = none ∧
    findMatches (removeFile (addAll exIdx7 [exDefG]) "g.yaml") defaultConfig ["z"] =
      findMatches exIdx7 defaultConfig ["z"] :=
  ⟨by decide,
    (claim_C7 exIdx7 "g.yaml" [exDefG] (by decide) (by decide) (by decide)
      (by decide) (by decide)).1 defaultConfig ["z"]⟩

/-- Claim C10: in a coherent index state — in particular one where a
document was indexed several times without an intervening removal, so
buckets and the by-document store hold several registrations per
definition — one `removeFile` call removes the document's file-index
entry and every registration owned by it from every suffix bucket, and
afterwards no query at any path returns a match owned by it. -/
theorem claim_C10 (idx : ReversePathIndex) (F : String)
    (hco : Coherent idx)
    (hnkr : NodupKeys idx.reverseIndex)
    (hnkf : NodupKeys idx.fileIndex) :
    mapGet (removeFile idx F).fileIndex F = none ∧
    (∀ e ∈ (removeFile idx F).reverseIndex, ∀ d ∈ e.2, d.fileUri ≠ F) ∧
    (∀ cfg q m, m ∈ findMatches (removeFile idx F) cfg q →
      m.definition.fileUri ≠ F) := by
  have hMnod : NodupKeys (removeFile idx F).reverseIndex := by
    rw [removeFile_reverseIndex]
    exact nodupKeys_foldl_removeDefStep _ _ hnkr
  have hii : ∀ e ∈ (removeFile idx F).reverseIndex, ∀ d ∈ e.2, d.fileUri ≠ F := by
    intro e he d hd hdF
    have hget : mapGet (removeFile idx F).reverseIndex e.1 = some e.2 :=
      mapGet_of_mem hMnod (show (e.1, e.2) ∈ _ from he)
    rw [removeFile_reverseIndex, get_foldl_removeDefStep _ _ _ hnkr] at hget
    have hd2 : d ∈ (((((mapGet idx.fileIndex F).getD []).filter
        (fun e2 => decide (e.1 ∈ suffixKeys e2.logicalPath))).foldl
        (fun b e2 => remAt b e2.defId) (mapGet idx.reverseIndex e.1)).getD []) := by
      rw [hget]
      simpa using hd
    obtain ⟨hdb, hnotin⟩ := mem_getD_foldl_remAt hd2
    cases hg : mapGet idx.reverseIndex e.1 with
    | none =>
        rw [hg] at hdb
        simp at hdb
    | some l =>
        rw [hg] at hdb
        simp only [Option.getD_some] at hdb
        obtain ⟨hdfi, hdsuf⟩ := hco _ (mapGet_mem hg) d hdb
        rw [hdF] at hdfi
        have hdrel : d ∈ ((mapGet idx.fileIndex F).getD []).filter
            (fun e2 => decide (e.1 ∈ suffixKeys e2.logicalPath)) :=
          List.mem_filter.mpr ⟨hdfi, by simpa using hdsuf⟩
        exact hnotin d hdrel rfl
  refine ⟨?_, hii, ?_⟩
  · rw [removeFile_fileIndex]
    exact mapGet_mapDelete_self hnkf
  · intro cfg q m hm hmF
    unfold findMatches at hm
    have hm1 : m ∈ sortMatches (dedupMatches (rawMatches (removeFile idx F) q)) :=
      List.Sublist.mem hm (applyMatchFilter_sublist cfg _ q.length)
    have hm2 : m ∈ dedupMatches (rawMatches (removeFile idx F) q) :=
      mem_sortMatches.mp hm1
    have hm3 : m ∈ rawMatches (removeFile idx F) q :=
      ((dedupMatches_spec _).1 m hm2).1
    obtain ⟨s, hds⟩ := mem_rawMatches hm3
    cases hg : mapGet (removeFile idx F).reverseIndex s with
    | none =>
        rw [hg] at hds
        simp at hds
    | some l =>
        rw [hg] at hds
        simp only [Option.getD_some] at hds
        exact hii _ (mapGet_mem hg) m.definition hds hmF

/-- Claim C10, witness: `f.yaml` indexed twice without removal (two
accumulated registrations per suffix), then removed with one call. -/
theorem claim_C10_witness :
    Coherent (addAll exIdx7 [exDef1]) ∧
    mapGet (removeFile (addAll exIdx7 [exDef1]) "f.yaml").fileIndex "f.yaml" = none :=
  ⟨by decide,
    (claim_C10 (addAll exIdx7 [exDef1]) "f.yaml" (by decide) (by decide) (by decide)).1⟩

end Hydralance
